import Mathlib

/-!
Verification development for the miniDB storage engine
(`src/kv/storage.rs`, `src/kv/error.rs`, `src/bin/kvs.rs`).

The engine is a simplified Bitcask: an append-only log of self-framing
records, an in-memory key→offset index, replay at open, and a compacting
merge.  We shallowly embed the code:

* Rust `String`s are modelled as their UTF-8 byte sequences (`List Nat`),
  equality of strings being equality of byte sequences.
* The active data file is a `List Nat` of bytes.
* `usize` is the 64-bit host width (`USIZE_LEN = 8`), so machine integers
  are `Nat` with explicit truncation `% 256 ^ 8` where the codec writes
  them out.
* Fallible Rust code returns `Except KvsError`.  `KvsError.panicked` is not
  a variant of the Rust enum: it models process abort from `.unwrap()` on
  an `Err` (and fuel exhaustion in the two scan loops, which is proved
  unreachable for well-formed files).
* The writer is a `BufWriter`; bytes it has accepted live in its in-memory
  buffer until a flush.  The state records the whole logical byte stream
  (`file`) together with how much of it has reached the disk (`flushed`);
  the reader — a `BufReader` whose buffer is discarded by the seek that
  starts every `read_at` — sees only the on-disk prefix `file.take flushed`.
  `write` ends in an explicit flush; `merge` does not flush the merge
  file''s writer, so after a rewriting merge `flushed` is only what the
  `BufWriter` capacity rules forced out.
* I/O failures (disk errors) are not modelled; reads and writes act on the
  byte lists that mirror the buffered stream and the file contents.
-/

namespace MiniDB

/-- Byte width of `usize` on the 64-bit host (`USIZE_LEN` in storage.rs). -/
def USIZE_LEN : Nat := 8

/-- Header length of a record: two length fields plus one kind byte
(`ENTRY_HEAD_LEN = USIZE_LEN * 2 + 1`). -/
def ENTRY_HEAD_LEN : Nat := USIZE_LEN * 2 + 1

/-- Compaction threshold, `1 << 16` bytes (storage.rs line 15). -/
def COMPACTION_THRESHOLD : Nat := 1 <<< 16

/-- Command kind of a record, `CmdKind` in storage.rs: PUT = 1, DEL = 2. -/
inductive CmdKind where
  | PUT
  | DEL
deriving DecidableEq

/-- One log record, `Entry` in storage.rs. -/
structure Entry where
  key_len : Nat
  value_len : Nat
  key : List Nat
  value : List Nat
  kind : CmdKind
deriving DecidableEq

/-- `Entry::new`: lengths are taken from the byte lengths of key and value. -/
def Entry.new (key value : List Nat) (kind : CmdKind) : Entry :=
  { key_len := key.length, value_len := value.length,
    key := key, value := value, kind := kind }

/-- `Entry::size`: total encoded size of the record. -/
def Entry.size (e : Entry) : Nat :=
  ENTRY_HEAD_LEN + e.key_len + e.value_len

/-- Big-endian encoding of `n` into `w` bytes, as `usize::to_be_bytes`
produces (most significant byte first); the value is implicitly truncated
to `w` bytes, matching the fixed-width machine integer. -/
def toBE : Nat → Nat → List Nat
  | 0, _ => []
  | w + 1, n => toBE w (n / 256) ++ [n % 256]

/-- Big-endian decoding, as `usize::from_be_bytes`. -/
def fromBE (bs : List Nat) : Nat :=
  bs.foldl (fun a b => a * 256 + b) 0

/-- The single serialized byte of a `CmdKind` (serde_repr/bincode writes the
`repr(u8)` discriminant). -/
def kindByte : CmdKind → Nat
  | .PUT => 1
  | .DEL => 2

/-- Deserialization of a `CmdKind` byte; any byte other than 1 or 2 is a
bincode error (`KvsError::ReprDecode`). -/
def decodeKind (b : Nat) : Option CmdKind :=
  if b = 1 then some CmdKind.PUT
  else if b = 2 then some CmdKind.DEL
  else none

/-- Error enum `KvsError` from error.rs, restricted to the variants the
model can produce.  `UnexpectedEof` stands for `KvsError::IO` carrying the
`read_exact` unexpected-EOF error; `ReprDecode` is the bincode kind-byte
failure; `StringDecode` is invalid UTF-8.  `panicked` is not a Rust
variant: it models process abort (`.unwrap()` on `Err`, see
`SimplifiedBitcask::write`). -/
inductive KvsError where
  | ReprDecode
  | StringDecode
  | UnexpectedEof
  | KeyNotFound
  | EOF
  | panicked
deriving DecidableEq

/-- `Entry::encode`: header (two big-endian length fields and the kind
byte) followed by the raw key and value bytes.  The Rust code copies into a
buffer of length `size()` and panics unless `key_len`/`value_len` equal the
actual byte lengths; for such entries (the only ones the engine builds, via
`Entry::new`) the buffer is exactly this concatenation. -/
def Entry.encode (e : Entry) : List Nat :=
  toBE USIZE_LEN e.key_len ++ toBE USIZE_LEN e.value_len ++ [kindByte e.kind]
    ++ e.key ++ e.value

/-- `Entry::decode`: parse the 17-byte header.  The `&[u8; ENTRY_HEAD_LEN]`
parameter type is modelled by the length guard (so the `try_into` slice
conversions always succeed); the only failure is the bincode kind byte. -/
def Entry.decode (b : List Nat) : Except KvsError Entry :=
  if b.length = ENTRY_HEAD_LEN then
    match decodeKind (b.getD (USIZE_LEN * 2) 0) with
    | some kind =>
        .ok { key_len := fromBE (b.take USIZE_LEN),
              value_len := fromBE ((b.drop USIZE_LEN).take USIZE_LEN),
              key := [], value := [], kind := kind }
    | none => .error .ReprDecode
  else .error .ReprDecode

/-- UTF-8 validity of a byte sequence, as `String::from_utf8` checks
(RFC 3629: no overlong forms, no surrogates, at most U+10FFFF). -/
def utf8Valid : List Nat → Bool
  | [] => true
  | b :: rest =>
    if b ≤ 0x7F then utf8Valid rest
    else
      match rest with
      | [] => false
      | c1 :: rest1 =>
        if 0xC2 ≤ b ∧ b ≤ 0xDF then
          if 0x80 ≤ c1 ∧ c1 ≤ 0xBF then utf8Valid rest1 else false
        else
          match rest1 with
          | [] => false
          | c2 :: rest2 =>
            if (b = 0xE0 ∧ 0xA0 ≤ c1 ∧ c1 ≤ 0xBF)
                ∨ ((0xE1 ≤ b ∧ b ≤ 0xEC ∨ b = 0xEE ∨ b = 0xEF)
                    ∧ 0x80 ≤ c1 ∧ c1 ≤ 0xBF)
                ∨ (b = 0xED ∧ 0x80 ≤ c1 ∧ c1 ≤ 0x9F) then
              if 0x80 ≤ c2 ∧ c2 ≤ 0xBF then utf8Valid rest2 else false
            else
              match rest2 with
              | [] => false
              | c3 :: rest3 =>
                if (b = 0xF0 ∧ 0x90 ≤ c1 ∧ c1 ≤ 0xBF)
                    ∨ (0xF1 ≤ b ∧ b ≤ 0xF3 ∧ 0x80 ≤ c1 ∧ c1 ≤ 0xBF)
                    ∨ (b = 0xF4 ∧ 0x80 ≤ c1 ∧ c1 ≤ 0x8F) then
                  if (0x80 ≤ c2 ∧ c2 ≤ 0xBF) ∧ 0x80 ≤ c3 ∧ c3 ≤ 0xBF then
                    utf8Valid rest3
                  else false
                else false

/-- Default `BufWriter` buffer size, 8 KiB (`DEFAULT_BUF_SIZE`). -/
def WRITE_BUF_CAPACITY : Nat := 8192

/-- One `BufWriter::write` of `b` bytes, acting on (bytes already flushed
to disk, bytes currently buffered): if the incoming bytes would overflow
the buffer, the buffer is flushed first; then a chunk at least as large as
the capacity bypasses the buffer and goes straight to the file, anything
smaller is buffered. -/
def bufWriteStep (p : Nat × Nat) (b : Nat) : Nat × Nat :=
  let q := if WRITE_BUF_CAPACITY < p.2 + b then (p.1 + p.2, 0) else p
  if WRITE_BUF_CAPACITY ≤ b then (q.1 + b, q.2) else (q.1, q.2 + b)

/-- Bytes on disk after writing chunks of the given sizes through a fresh
`BufWriter` with no final flush; flushes emit the buffer in order, so the
on-disk content is always a prefix of the logical stream. -/
def flushedAfter (sizes : List Nat) : Nat :=
  (sizes.foldl bufWriteStep (0, 0)).1

/-- In-memory index, `HashMap<String, u64>` in the Rust code, modelled as an
association list whose operations agree pointwise with a hash map's.  The
index is only used through get/insert/remove/contains, so its iteration
order never matters. -/
abbrev Index := List (List Nat × Nat)

/-- `HashMap::get` (also backs `contains_key`). -/
def idxGet (idx : Index) (k : List Nat) : Option Nat :=
  (idx.find? (fun p => decide (p.1 = k))).map Prod.snd

/-- `HashMap::insert`: binds `k` to `v`, replacing any previous binding. -/
def idxInsert (idx : Index) (k : List Nat) (v : Nat) : Index :=
  (k, v) :: idx.filter (fun p => decide (p.1 ≠ k))

/-- `HashMap::remove`: drops the binding of `k` if any. -/
def idxRemove (idx : Index) (k : List Nat) : Index :=
  idx.filter (fun p => decide (p.1 ≠ k))

/-- The body of `SimplifiedBitcask::read_at` once the reader is positioned:
`rest` is the file contents from the seek offset to end of file.  A header
read returning 0 bytes is the EOF sentinel; a short header read leaves the
tail of the 17-byte zero-initialized buffer untouched (the Rust buffer is
`[0; ENTRY_HEAD_LEN]`); then exactly `key_len` and `value_len` bytes are
read (`read_exact`, failing with an unexpected-EOF I/O error if the file is
too short) and each is validated as UTF-8 (`String::from_utf8`). -/
def readBytes (rest : List Nat) : Except KvsError Entry :=
  let len := min ENTRY_HEAD_LEN rest.length
  if len = 0 then .error .EOF
  else
    match Entry.decode (rest.take len ++ List.replicate (ENTRY_HEAD_LEN - len) 0) with
    | .error er => .error er
    | .ok e0 =>
      let body := rest.drop len
      if e0.key_len ≤ body.length then
        if utf8Valid (body.take e0.key_len) then
          let body2 := body.drop e0.key_len
          if e0.value_len ≤ body2.length then
            if utf8Valid (body2.take e0.value_len) then
              .ok { e0 with key := body.take e0.key_len,
                            value := body2.take e0.value_len }
            else .error .StringDecode
          else .error .UnexpectedEof
        else .error .StringDecode
      else .error .UnexpectedEof

/-- `SimplifiedBitcask::read_at`: seek the reader to `offset` and decode one
record there. -/
def readAt (file : List Nat) (offset : Nat) : Except KvsError Entry :=
  readBytes (file.drop offset)

/-- Engine state, `SimplifiedBitcask` in storage.rs.  `file` is the byte
stream the writer has accepted for the active data file; `flushed` is how
many of those bytes are on disk (the writer''s `BufWriter` holds the rest),
so the reader sees `file.take flushed`; `writerPos` is `writer.pos`;
`data_path_buf` carries no observable state and is omitted. -/
structure SimplifiedBitcask where
  file : List Nat
  index : Index
  writerPos : Nat
  pending_compact : Nat
  flushed : Nat
deriving DecidableEq

/-- The on-disk contents of the active data file: the flushed prefix of
the writer''s byte stream.  This is what `read_at` reads, because every
`read_at` begins with a seek, which discards the `BufReader` buffer. -/
def SimplifiedBitcask.disk (s : SimplifiedBitcask) : List Nat :=
  s.file.take s.flushed

/-- The state produced by `open` on a fresh directory (empty data file). -/
def SimplifiedBitcask.empty : SimplifiedBitcask :=
  { file := [], index := [], writerPos := 0, pending_compact := 0, flushed := 0 }

/-- `SimplifiedBitcask::write`: insert `key ↦ writer.pos` into the index;
if that superseded a previous offset, re-read the record there and credit
its size to `pending_compact` (the re-read goes through the reader, i.e.
over the on-disk bytes, and the Rust code calls `.unwrap()` on it, so a
failing read aborts the process — modelled by `KvsError.panicked`); then
append the encoded entry and flush, which puts the whole stream —
including any bytes a preceding merge left buffered — on disk. -/
def SimplifiedBitcask.write (s : SimplifiedBitcask) (entry : Entry) :
    Except KvsError SimplifiedBitcask :=
  match idxGet s.index entry.key with
  | some old_pos =>
      match readAt s.disk old_pos with
      | .ok oldE =>
          .ok { file := s.file ++ entry.encode,
                index := idxInsert s.index entry.key s.writerPos,
                writerPos := s.writerPos + entry.encode.length,
                pending_compact := s.pending_compact + oldE.size,
                flushed := (s.file ++ entry.encode).length }
      | .error _ => .error .panicked
  | none =>
      .ok { file := s.file ++ entry.encode,
            index := idxInsert s.index entry.key s.writerPos,
            writerPos := s.writerPos + entry.encode.length,
            pending_compact := s.pending_compact,
            flushed := (s.file ++ entry.encode).length }

/-- `SimplifiedBitcask::read`: look the key up in the index and decode the
record at the recorded offset. -/
def SimplifiedBitcask.read (s : SimplifiedBitcask) (key : List Nat) :
    Except KvsError Entry :=
  match idxGet s.index key with
  | some offset => readAt s.disk offset
  | none => .error .KeyNotFound

/-- `Storage::get` for `SimplifiedBitcask`: `KeyNotFound` becomes `None`,
other errors propagate. -/
def SimplifiedBitcask.get (s : SimplifiedBitcask) (key : List Nat) :
    Except KvsError (Option (List Nat)) :=
  match s.read key with
  | .ok e => .ok (some e.value)
  | .error .KeyNotFound => .ok none
  | .error er => .error er

/-- The loop of `SimplifiedBitcask::load_index`, replaying the file from
`off`.  The Rust loop always terminates because every iteration advances
the offset by `e.size() ≥ ENTRY_HEAD_LEN`; the fuel parameter makes the
recursion structural, and fuel exhaustion (proved unreachable for the
fuel the caller passes, see `loadIndex_spec`) is mapped to `panicked`. -/
def loadIndex (fuel : Nat) (file : List Nat) (idx : Index) (off : Nat) :
    Except KvsError (Index × Nat) :=
  match fuel with
  | 0 => .error .panicked
  | f + 1 =>
    match readAt file off with
    | .ok e =>
        loadIndex f file
          (match e.kind with
           | .DEL => idxRemove idx e.key
           | .PUT => idxInsert idx e.key off)
          (off + e.size)
    | .error .EOF => .ok (idx, off)
    | .error er => .error er

/-- `SimplifiedBitcask::open` on a directory whose data file holds `file`
(creating the file if absent corresponds to `file = []`): start from an
empty index and `pending_compact = 0`, replay the log, and set the writer
position to the final offset. -/
def openStore (file : List Nat) : Except KvsError SimplifiedBitcask :=
  match loadIndex (file.length + 1) file [] 0 with
  | .ok (idx, pos) =>
      .ok { file := file, index := idx, writerPos := pos,
            pending_compact := 0, flushed := file.length }
  | .error er => .error er

/-- The scan loop of `SimplifiedBitcask::merge`: collect every record that
is a PUT and whose index entry points exactly at it (fuel as in
`loadIndex`). -/
def mergeScan (fuel : Nat) (file : List Nat) (idx : Index) (off : Nat)
    (acc : List Entry) : Except KvsError (List Entry) :=
  match fuel with
  | 0 => .error .panicked
  | f + 1 =>
    match readAt file off with
    | .ok e =>
        mergeScan f file idx (off + e.size)
          (if e.kind = CmdKind.PUT ∧ idxGet idx e.key = some off
           then acc ++ [e] else acc)
    | .error .EOF => .ok acc
    | .error er => .error er

/-- The rewrite loop of `SimplifiedBitcask::merge`: for each live entry,
bind its key to the current merge-file position, then append its encoding. -/
def mergeWrite (idx : Index) (file : List Nat) : List Entry → Index × List Nat
  | [] => (idx, file)
  | e :: rest => mergeWrite (idxInsert idx e.key file.length) (file ++ e.encode) rest

/-- `SimplifiedBitcask::merge`: scan the on-disk file for live records; if
there are none, only reset `pending_compact`; otherwise rewrite them into a
fresh merge file that replaces the active one, pointing the index, reader
and writer at it, and reset `pending_compact`.  The rewrite loop pushes
each record through the new `BufWriterWithPos` and never flushes it, so
only what the `BufWriter` capacity rules forced out (`flushedAfter`) is on
disk when the reader is reopened; the rest sits in the writer buffer until
the next `write`.  (The `InvalidDataPath` check and the filesystem rename
are path bookkeeping with no observable effect here.) -/
def SimplifiedBitcask.merge (s : SimplifiedBitcask) :
    Except KvsError SimplifiedBitcask :=
  match mergeScan (s.disk.length + 1) s.disk s.index 0 [] with
  | .error er => .error er
  | .ok valid_entry =>
      if valid_entry.isEmpty then .ok { s with pending_compact := 0 }
      else
        let p := mergeWrite s.index [] valid_entry
        .ok { file := p.2, index := p.1, writerPos := p.2.length,
              pending_compact := 0,
              flushed := flushedAfter (valid_entry.map (fun e => e.encode.length)) }

/-- `Storage::put` for `SimplifiedBitcask`: write a PUT entry, then merge
if `pending_compact` reached the threshold. -/
def SimplifiedBitcask.put (s : SimplifiedBitcask) (key val : List Nat) :
    Except KvsError SimplifiedBitcask :=
  match s.write (Entry.new key val CmdKind.PUT) with
  | .ok s1 =>
      if s1.pending_compact ≥ COMPACTION_THRESHOLD then s1.merge else .ok s1
  | .error er => .error er

/-- `Storage::remove` for `SimplifiedBitcask`: if the key is present, write
a DEL entry and erase the index binding; otherwise fail with
`KeyNotFound` without touching anything. -/
def SimplifiedBitcask.remove (s : SimplifiedBitcask) (key : List Nat) :
    Except KvsError SimplifiedBitcask :=
  if (idxGet s.index key).isSome then
    match s.write (Entry.new key [] CmdKind.DEL) with
    | .ok s1 => .ok { s1 with index := idxRemove s1.index key }
    | .error er => .error er
  else .error .KeyNotFound

/-- One CLI invocation, `Command` in bin/kvs.rs. -/
inductive CliCmd where
  | set (key val : List Nat)
  | get (key : List Nat)
  | rm (key : List Nat)

/-- A line printed to standard output by the CLI: either a value followed
by a newline, or the literal `Key not found` line. -/
inductive OutLine where
  | value (v : List Nat)
  | keyNotFound
deriving DecidableEq

/-- Observable outcome of one CLI run: the stdout lines, the engine error
Debug-printed to stderr by `eprintln!` if any, and the process exit code. -/
structure CliOutcome where
  stdout : List OutLine
  stderrDiag : Option KvsError
  exitCode : Nat
deriving DecidableEq

/-- The dispatch in `main` of bin/kvs.rs, after the store has been opened
on state `s`.  `KvStore` methods delegate directly to `SimplifiedBitcask`
(kv_store.rs).  A `panicked` engine outcome (and the `.unwrap()` on `get`)
aborts the process instead of producing an outcome, modelled by `.error`.
Note: the `Set` arm only `eprintln!`s a non-panic error and falls through,
so the process still exits 0; the `Remove` arm handles only `KeyNotFound`
(printing to stdout and exiting 1) and silently exits 0 on other errors. -/
def cliMain (s : SimplifiedBitcask) (c : CliCmd) : Except KvsError CliOutcome :=
  match c with
  | .get key =>
      match s.get key with
      | .ok (some v) => .ok { stdout := [.value v], stderrDiag := none, exitCode := 0 }
      | .ok none => .ok { stdout := [.keyNotFound], stderrDiag := none, exitCode := 0 }
      | .error er => .error er
  | .set key val =>
      match s.put key val with
      | .ok _ => .ok { stdout := [], stderrDiag := none, exitCode := 0 }
      | .error .panicked => .error .panicked
      | .error er => .ok { stdout := [], stderrDiag := some er, exitCode := 0 }
  | .rm key =>
      match s.remove key with
      | .ok _ => .ok { stdout := [], stderrDiag := none, exitCode := 0 }
      | .error .KeyNotFound =>
          .ok { stdout := [.keyNotFound], stderrDiag := none, exitCode := 1 }
      | .error .panicked => .error .panicked
      | .error _ => .ok { stdout := [], stderrDiag := none, exitCode := 0 }

/-- A byte sequence that can be the contents of a Rust `String`: valid
UTF-8 and of machine-representable length. -/
def WFStr (l : List Nat) : Prop :=
  utf8Valid l = true ∧ l.length < 256 ^ USIZE_LEN

/-- An entry as `Entry::new` builds them: length fields agree with the
byte sequences, and key and value are string contents. -/
def WFEntry (e : Entry) : Prop :=
  e.key_len = e.key.length ∧ e.value_len = e.value.length ∧
    WFStr e.key ∧ WFStr e.value

/-- All entries of a record list are well formed. -/
def WFLog (log : List Entry) : Prop := ∀ e ∈ log, WFEntry e

/-- Concatenated encoding of a record list: the byte contents of a log
file holding exactly these records in order. -/
def encodeLog : List Entry → List Nat
  | [] => []
  | e :: rest => e.encode ++ encodeLog rest

/-- Byte offset of the `i`-th record in a record list. -/
def offsetAt : List Entry → Nat → Nat
  | _, 0 => 0
  | [], _ + 1 => 0
  | e :: rest, i + 1 => e.size + offsetAt rest i

/-- Total encoded size of a record list. -/
def totalSize : List Entry → Nat
  | [] => 0
  | e :: rest => e.size + totalSize rest

/-- Each record paired with its absolute byte offset, starting at `base`. -/
def withOffsets : List Entry → Nat → List (Nat × Entry)
  | [], _ => []
  | e :: rest, base => (base, e) :: withOffsets rest (base + e.size)

/-- One replay step at the record level: a PUT binds the key to the
record's offset, a DEL erases it; either way the offset advances by the
record size.  This is the loop body of `load_index` lifted to records. -/
def replayStep (p : Index × Nat) (e : Entry) : Index × Nat :=
  match e.kind with
  | .PUT => (idxInsert p.1 e.key p.2, p.2 + e.size)
  | .DEL => (idxRemove p.1 e.key, p.2 + e.size)

/-- The index obtained by replaying a record list from an empty index. -/
def replayIdx (log : List Entry) : Index :=
  (log.foldl replayStep ([], 0)).1

/-- The offset-annotated records `merge` keeps: PUTs whose index entry
points exactly at them. -/
def liveRecords (idx : Index) (log : List Entry) : List (Nat × Entry) :=
  (withOffsets log 0).filter
    (fun p => decide (p.2.kind = CmdKind.PUT ∧ idxGet idx p.2.key = some p.1))

/-- Two indexes are observationally equal: every lookup agrees. -/
def pointwiseEq (i1 i2 : Index) : Prop := ∀ k, idxGet i1 k = idxGet i2 k

/-- Engine invariant: the file is the concatenation of a well-formed
record list, the writer sits at end of file, and the index agrees
pointwise with replaying that list. -/
def Inv (s : SimplifiedBitcask) : Prop :=
  ∃ log, s.file = encodeLog log ∧ WFLog log ∧
    s.writerPos = s.file.length ∧ pointwiseEq s.index (replayIdx log)

/-- Decidability of string well-formedness, so that concrete witnesses can
be checked by evaluation. -/
instance (l : List Nat) : Decidable (WFStr l) :=
  inferInstanceAs (Decidable (utf8Valid l = true ∧ l.length < 256 ^ USIZE_LEN))

/-- Decidability of entry well-formedness. -/
instance (e : Entry) : Decidable (WFEntry e) :=
  inferInstanceAs (Decidable (e.key_len = e.key.length ∧ e.value_len = e.value.length
    ∧ WFStr e.key ∧ WFStr e.value))

/-- Concrete engine state used by witnesses: the state reached from a
fresh store by `set("a", "b")` (key byte 97, value byte 98). -/
def sampleState : SimplifiedBitcask :=
  ⟨[0, 0, 0, 0, 0, 0, 0, 1, 0, 0, 0, 0, 0, 0, 0, 1, 1, 97, 98],
    [([97], 0)], 19, 0, 19⟩

/-- A 65600-byte ASCII value, used to drive `pending_compact` past the
compaction threshold with a single supersede. -/
def bigValue : List Nat := List.replicate 65600 98

/-- A 65519-byte ASCII value whose PUT record is 65537 bytes: superseding
it once pushes `pending_compact` past the compaction threshold, while the
superseding record itself is far below the `BufWriter` capacity, so the
merge it triggers leaves its whole output buffered. -/
def hugeValue : List Nat := List.replicate 65519 97

/-- States reachable through the public engine interface: a fresh open,
then successful `set`/`remove` calls and clean reopens. -/
inductive Reachable : SimplifiedBitcask → Prop where
  | init : Reachable SimplifiedBitcask.empty
  | set {s s' : SimplifiedBitcask} {k v : List Nat} :
      Reachable s → WFStr k → WFStr v → s.put k v = .ok s' → Reachable s'
  | rm {s s' : SimplifiedBitcask} {k : List Nat} :
      Reachable s → s.remove k = .ok s' → Reachable s'
  | reopen {s s' : SimplifiedBitcask} :
      Reachable s → openStore s.file = .ok s' → Reachable s'


end MiniDB

deriving instance DecidableEq for Except

namespace MiniDB

theorem toBE_length (w n : Nat) : (toBE w n).length = w := by
  induction w generalizing n with
  | zero => simp [toBE]
  | succ w ih => simp [toBE, ih]

theorem fromBE_aux (w a n : Nat) :
    List.foldl (fun a b => a * 256 + b) a (toBE w n) = a * 256 ^ w + n % 256 ^ w := by
  induction w generalizing a n with
  | zero => simp [toBE, Nat.mod_one]
  | succ w ih =>
      rw [toBE, List.foldl_append, ih]
      simp only [List.foldl_cons, List.foldl_nil]
      rw [pow_succ, Nat.mul_comm (256 ^ w) 256, Nat.mod_mul]
      ring

theorem fromBE_toBE {w n : Nat} (h : n < 256 ^ w) : fromBE (toBE w n) = n := by
  unfold fromBE
  rw [fromBE_aux]
  simp [Nat.mod_eq_of_lt h]

theorem encode_eq (e : Entry) :
    e.encode = (toBE 8 e.key_len ++ (toBE 8 e.value_len ++ [kindByte e.kind]))
      ++ (e.key ++ e.value) := by
  simp [Entry.encode, USIZE_LEN, List.append_assoc]

theorem encode_length (e : Entry) :
    e.encode.length = ENTRY_HEAD_LEN + e.key.length + e.value.length := by
  simp [Entry.encode, toBE_length, ENTRY_HEAD_LEN, USIZE_LEN]
  omega

theorem encode_length_of_wf {e : Entry} (h : WFEntry e) :
    e.encode.length = e.size := by
  obtain ⟨h1, h2, _, _⟩ := h
  rw [encode_length, Entry.size, h1, h2]

theorem decodeKind_kindByte (k : CmdKind) : decodeKind (kindByte k) = some k := by
  cases k <;> rfl

theorem decode_header (e : Entry) (hk : e.key_len < 256 ^ 8)
    (hv : e.value_len < 256 ^ 8) :
    Entry.decode (toBE 8 e.key_len ++ (toBE 8 e.value_len ++ [kindByte e.kind]))
      = .ok { key_len := e.key_len, value_len := e.value_len,
              key := [], value := [], kind := e.kind } := by
  have hlen : (toBE 8 e.key_len ++ (toBE 8 e.value_len ++ [kindByte e.kind])).length
      = ENTRY_HEAD_LEN := by
    simp [toBE_length, ENTRY_HEAD_LEN, USIZE_LEN]
  have hgd : (toBE 8 e.key_len ++ (toBE 8 e.value_len ++ [kindByte e.kind])).getD
      (USIZE_LEN * 2) 0 = kindByte e.kind := by
    have h16 : (toBE 8 e.key_len ++ toBE 8 e.value_len).length = USIZE_LEN * 2 := by
      simp [toBE_length, USIZE_LEN]
    rw [← List.append_assoc, List.getD_eq_getElem?_getD, ← h16,
      List.getElem?_concat_length]
    rfl
  have htake : (toBE 8 e.key_len ++ (toBE 8 e.value_len ++ [kindByte e.kind])).take
      USIZE_LEN = toBE 8 e.key_len := by
    have : USIZE_LEN = (toBE 8 e.key_len).length := by simp [toBE_length, USIZE_LEN]
    rw [this, List.take_left]
  have hdrop : (toBE 8 e.key_len ++ (toBE 8 e.value_len ++ [kindByte e.kind])).drop
      USIZE_LEN = toBE 8 e.value_len ++ [kindByte e.kind] := by
    have : USIZE_LEN = (toBE 8 e.key_len).length := by simp [toBE_length, USIZE_LEN]
    rw [this, List.drop_left]
  have htake2 : (toBE 8 e.value_len ++ [kindByte e.kind]).take USIZE_LEN
      = toBE 8 e.value_len := by
    have : USIZE_LEN = (toBE 8 e.value_len).length := by simp [toBE_length, USIZE_LEN]
    rw [this, List.take_left]
  rw [Entry.decode, if_pos hlen, hgd, decodeKind_kindByte, htake, hdrop, htake2,
    fromBE_toBE hk, fromBE_toBE hv]

theorem readBytes_encode {e : Entry} (h : WFEntry e) (tail : List Nat) :
    readBytes (e.encode ++ tail) = .ok e := by
  obtain ⟨h1, h2, ⟨hku, hkb⟩, ⟨hvu, hvb⟩⟩ := h
  have hkbound : e.key_len < 256 ^ 8 := by
    rw [h1]; simpa [USIZE_LEN] using hkb
  have hvbound : e.value_len < 256 ^ 8 := by
    rw [h2]; simpa [USIZE_LEN] using hvb
  have hhl : (toBE 8 e.key_len ++ (toBE 8 e.value_len ++ [kindByte e.kind])).length
      = ENTRY_HEAD_LEN := by
    simp [toBE_length, ENTRY_HEAD_LEN, USIZE_LEN]
  have hrest : e.encode ++ tail
      = (toBE 8 e.key_len ++ (toBE 8 e.value_len ++ [kindByte e.kind]))
        ++ (e.key ++ (e.value ++ tail)) := by
    rw [encode_eq]
    simp [List.append_assoc]
  have hminlen : min ENTRY_HEAD_LEN (e.encode ++ tail).length = ENTRY_HEAD_LEN := by
    apply Nat.min_eq_left
    rw [hrest, List.length_append, hhl]
    omega
  have htake : (e.encode ++ tail).take ENTRY_HEAD_LEN
      = toBE 8 e.key_len ++ (toBE 8 e.value_len ++ [kindByte e.kind]) := by
    rw [hrest, ← hhl, List.take_left]
  have hdrop : (e.encode ++ tail).drop ENTRY_HEAD_LEN
      = e.key ++ (e.value ++ tail) := by
    rw [hrest, ← hhl, List.drop_left]
  have htkey : (e.key ++ (e.value ++ tail)).take e.key_len = e.key := by
    rw [h1, List.take_left]
  have hdkey : (e.key ++ (e.value ++ tail)).drop e.key_len = e.value ++ tail := by
    rw [h1, List.drop_left]
  have htval : (e.value ++ tail).take e.value_len = e.value := by
    rw [h2, List.take_left]
  rw [readBytes]
  simp only [hminlen, htake, hdrop]
  rw [if_neg (by simp [ENTRY_HEAD_LEN])]
  simp only [Nat.sub_self, List.replicate, List.append_nil]
  rw [decode_header e hkbound hvbound]
  simp only []
  rw [if_pos (by rw [h1]; simp), if_pos (by rw [htkey]; exact hku), hdkey,
    if_pos (by rw [h2]; simp), if_pos (by rw [htval]; exact hvu), htkey, htval]

theorem readBytes_nil : readBytes [] = .error .EOF := rfl

theorem entry_head_le_size (e : Entry) : ENTRY_HEAD_LEN ≤ e.size := by
  rw [Entry.size]; omega

theorem entry_size_pos (e : Entry) : 0 < e.size := by
  have := entry_head_le_size e
  have : (0 : Nat) < ENTRY_HEAD_LEN := by simp [ENTRY_HEAD_LEN]
  omega

theorem encodeLog_append (l1 l2 : List Entry) :
    encodeLog (l1 ++ l2) = encodeLog l1 ++ encodeLog l2 := by
  induction l1 with
  | nil => simp [encodeLog]
  | cons e rest ih => simp [encodeLog, ih]

theorem totalSize_append (l1 l2 : List Entry) :
    totalSize (l1 ++ l2) = totalSize l1 + totalSize l2 := by
  induction l1 with
  | nil => simp [totalSize]
  | cons e rest ih => simp [totalSize, ih]; omega

theorem encodeLog_length_of_wf {log : List Entry} (h : WFLog log) :
    (encodeLog log).length = totalSize log := by
  induction log with
  | nil => simp [encodeLog, totalSize]
  | cons e rest ih =>
      have he : WFEntry e := h e (by simp)
      have hr : WFLog rest := fun x hx => h x (by simp [hx])
      simp [encodeLog, totalSize, encode_length_of_wf he, ih hr]

theorem length_le_totalSize (log : List Entry) : log.length ≤ totalSize log := by
  induction log with
  | nil => simp [totalSize]
  | cons e rest ih =>
      have := entry_size_pos e
      simp only [List.length_cons, totalSize]
      omega

theorem offsetAt_succ (e : Entry) (rest : List Entry) (i : Nat) :
    offsetAt (e :: rest) (i + 1) = e.size + offsetAt rest i := rfl

theorem offsetAt_add_size_le (log : List Entry) :
    ∀ i j, i < j → j ≤ log.length → ∀ hi : i < log.length,
      offsetAt log i + (log.get ⟨i, hi⟩).size ≤ offsetAt log j := by
  induction log with
  | nil => intro i j _ hj hi; simp at hi
  | cons e rest ih =>
      intro i j hij hj hi
      match i, j with
      | 0, j + 1 =>
          simp only [offsetAt, offsetAt_succ, List.get]
          omega
      | i + 1, j + 1 =>
          simp only [offsetAt_succ, List.get]
          have := ih i j (by omega) (by simpa using hj) (by simpa using hi)
          omega

theorem readAt_encodeLog_pre {log : List Entry} (h : WFLog log) :
    ∀ (pre : List Nat) i (hi : i < log.length),
      readAt (pre ++ encodeLog log) (pre.length + offsetAt log i)
        = .ok (log.get ⟨i, hi⟩) := by
  induction log with
  | nil => intro pre i hi; simp at hi
  | cons e rest ih =>
      intro pre i hi
      have he : WFEntry e := h e (by simp)
      have hr : WFLog rest := fun x hx => h x (by simp [hx])
      match i with
      | 0 =>
          simp only [offsetAt, Nat.add_zero, readAt, encodeLog, List.get]
          rw [List.drop_left, readBytes_encode he]
      | i + 1 =>
          simp only [offsetAt_succ, List.get]
          have hassoc : pre ++ encodeLog (e :: rest)
              = (pre ++ e.encode) ++ encodeLog rest := by
            simp [encodeLog, List.append_assoc]
          have hlen : pre.length + (e.size + offsetAt rest i)
              = (pre ++ e.encode).length + offsetAt rest i := by
            simp [encode_length_of_wf he]
            omega
          rw [hassoc, hlen]
          exact ih hr (pre ++ e.encode) i (by simpa using hi)

theorem readAt_encodeLog {log : List Entry} (h : WFLog log) (i : Nat)
    (hi : i < log.length) :
    readAt (encodeLog log) (offsetAt log i) = .ok (log.get ⟨i, hi⟩) := by
  have := readAt_encodeLog_pre h [] i hi
  simpa using this

theorem idx_find_filter (idx : Index) (k k' : List Nat) (h : k' ≠ k) :
    (idx.filter (fun p => decide (p.1 ≠ k))).find? (fun p => decide (p.1 = k'))
      = idx.find? (fun p => decide (p.1 = k')) := by
  induction idx with
  | nil => rfl
  | cons p rest ih =>
      by_cases hpk : p.1 = k
      · have hpk' : ¬ p.1 = k' := by rw [hpk]; exact fun hh => h hh.symm
        rw [List.filter_cons_of_neg (by simp [hpk]),
          List.find?_cons_of_neg _ (by simp [hpk']), ih]
      · by_cases hp' : p.1 = k'
        · rw [List.filter_cons_of_pos (by simp [hpk]),
            List.find?_cons_of_pos _ (by simp [hp']),
            List.find?_cons_of_pos _ (by simp [hp'])]
        · rw [List.filter_cons_of_pos (by simp [hpk]),
            List.find?_cons_of_neg _ (by simp [hp']),
            List.find?_cons_of_neg _ (by simp [hp']), ih]

theorem idx_find_filter_self (idx : Index) (k : List Nat) :
    (idx.filter (fun p => decide (p.1 ≠ k))).find? (fun p => decide (p.1 = k))
      = none := by
  induction idx with
  | nil => rfl
  | cons p rest ih =>
      by_cases hpk : p.1 = k
      · rw [List.filter_cons_of_neg (by simp [hpk]), ih]
      · rw [List.filter_cons_of_pos (by simp [hpk]),
          List.find?_cons_of_neg _ (by simp [hpk]), ih]

theorem idxGet_insert (idx : Index) (k : List Nat) (v : Nat) (k' : List Nat) :
    idxGet (idxInsert idx k v) k' = if k' = k then some v else idxGet idx k' := by
  by_cases h : k' = k
  · subst h
    rw [if_pos rfl]
    unfold idxGet idxInsert
    rw [List.find?_cons_of_pos _ (by simp)]
    rfl
  · rw [if_neg h]
    unfold idxGet idxInsert
    rw [List.find?_cons_of_neg _ (by simp; exact fun hh => h hh.symm),
      idx_find_filter idx k k' h]

theorem idxGet_remove (idx : Index) (k k' : List Nat) :
    idxGet (idxRemove idx k) k' = if k' = k then none else idxGet idx k' := by
  by_cases h : k' = k
  · subst h
    simp [idxGet, idxRemove, idx_find_filter_self]
  · rw [if_neg h]
    simp only [idxGet, idxRemove]
    rw [idx_find_filter idx k k' h]

theorem replay_snd (l : List Entry) (idx : Index) (off : Nat) :
    (l.foldl replayStep (idx, off)).2 = off + totalSize l := by
  induction l generalizing idx off with
  | nil => simp [totalSize]
  | cons e rest ih =>
      rw [List.foldl_cons]
      cases he : e.kind <;>
        simp [replayStep, he, ih, totalSize] <;> omega

theorem replay_sound (l : List Entry) (idx : Index) (off : Nat)
    (k : List Nat) (o : Nat)
    (h : idxGet ((l.foldl replayStep (idx, off)).1) k = some o) :
    (∃ i, ∃ hi : i < l.length, off + offsetAt l i = o ∧
      (l.get ⟨i, hi⟩).kind = CmdKind.PUT ∧ (l.get ⟨i, hi⟩).key = k) ∨
    idxGet idx k = some o := by
  induction l generalizing idx off with
  | nil => exact Or.inr h
  | cons e rest ih =>
      rw [List.foldl_cons] at h
      rcases ih _ _ h with ⟨i, hi, hoff, hkind, hkey⟩ | hbase
      · cases he : e.kind <;> simp [replayStep, he] at hoff
        · exact Or.inl ⟨i + 1, by simpa using hi,
            by simpa [offsetAt_succ] using by omega, hkind, hkey⟩
        · exact Or.inl ⟨i + 1, by simpa using hi,
            by simpa [offsetAt_succ] using by omega, hkind, hkey⟩
      · cases he : e.kind
        · simp only [replayStep, he] at hbase
          rw [idxGet_insert] at hbase
          by_cases hk : k = e.key
          · rw [if_pos hk] at hbase
            refine Or.inl ⟨0, by simp, ?_, by simp [List.get, he], by simp [List.get, hk]⟩
            simpa [offsetAt] using Option.some.inj hbase
          · rw [if_neg hk] at hbase
            exact Or.inr hbase
        · simp only [replayStep, he] at hbase
          rw [idxGet_remove] at hbase
          by_cases hk : k = e.key
          · rw [if_pos hk] at hbase; exact absurd hbase (by simp)
          · rw [if_neg hk] at hbase
            exact Or.inr hbase

theorem replay_get_untouched (l : List Entry) (idx : Index) (off : Nat)
    (k : List Nat) (h : ∀ e ∈ l, e.key ≠ k) :
    idxGet ((l.foldl replayStep (idx, off)).1) k = idxGet idx k := by
  induction l generalizing idx off with
  | nil => rfl
  | cons e rest ih =>
      rw [List.foldl_cons]
      have hek : e.key ≠ k := h e (by simp)
      have hr : ∀ x ∈ rest, x.key ≠ k := fun x hx => h x (by simp [hx])
      cases he : e.kind
      · rw [show replayStep (idx, off) e = (idxInsert idx e.key off, off + e.size) by
          simp [replayStep, he]]
        rw [ih _ _ hr, idxGet_insert, if_neg (fun hh => hek hh.symm)]
      · rw [show replayStep (idx, off) e = (idxRemove idx e.key, off + e.size) by
          simp [replayStep, he]]
        rw [ih _ _ hr, idxGet_remove, if_neg (fun hh => hek hh.symm)]

theorem replay_get_mem (l : List Entry) (idx : Index) (off : Nat)
    (hput : ∀ e ∈ l, e.kind = CmdKind.PUT)
    (hdist : l.Pairwise (fun a b => a.key ≠ b.key)) :
    ∀ j, ∀ hj : j < l.length,
      idxGet ((l.foldl replayStep (idx, off)).1) ((l.get ⟨j, hj⟩).key)
        = some (off + offsetAt l j) := by
  induction l generalizing idx off with
  | nil => intro j hj; simp at hj
  | cons e rest ih =>
      intro j hj
      rw [List.pairwise_cons] at hdist
      have he : e.kind = CmdKind.PUT := hput e (by simp)
      have hstep : replayStep (idx, off) e = (idxInsert idx e.key off, off + e.size) := by
        simp [replayStep, he]
      match j with
      | 0 =>
          rw [List.foldl_cons, hstep]
          simp only [List.get]
          rw [replay_get_untouched _ _ _ _ (fun x hx => (hdist.1 x hx).symm),
            idxGet_insert, if_pos rfl]
          simp [offsetAt]
      | j + 1 =>
          rw [List.foldl_cons, hstep]
          simp only [List.get, offsetAt_succ]
          rw [ih _ _ (fun x hx => hput x (by simp [hx])) hdist.2 j (by simpa using hj)]
          congr 1
          omega

theorem mergeWrite_snd (l : List Entry) (idx : Index) (f : List Nat) :
    (mergeWrite idx f l).2 = f ++ encodeLog l := by
  induction l generalizing idx f with
  | nil => simp [mergeWrite, encodeLog]
  | cons e rest ih => simp [mergeWrite, encodeLog, ih, List.append_assoc]

theorem mergeWrite_get_untouched (l : List Entry) (idx : Index) (f : List Nat)
    (k : List Nat) (h : ∀ e ∈ l, e.key ≠ k) :
    idxGet (mergeWrite idx f l).1 k = idxGet idx k := by
  induction l generalizing idx f with
  | nil => rfl
  | cons e rest ih =>
      rw [mergeWrite, ih _ _ (fun x hx => h x (by simp [hx])), idxGet_insert,
        if_neg (fun hh => (h e (by simp)) hh.symm)]

theorem mergeWrite_get_mem (l : List Entry) (idx : Index) (f : List Nat)
    (hwf : WFLog l) (hdist : l.Pairwise (fun a b => a.key ≠ b.key)) :
    ∀ j, ∀ hj : j < l.length,
      idxGet (mergeWrite idx f l).1 ((l.get ⟨j, hj⟩).key)
        = some (f.length + offsetAt l j) := by
  induction l generalizing idx f with
  | nil => intro j hj; simp at hj
  | cons e rest ih =>
      intro j hj
      rw [List.pairwise_cons] at hdist
      match j with
      | 0 =>
          rw [mergeWrite]
          simp only [List.get]
          rw [mergeWrite_get_untouched _ _ _ _ (fun x hx => (hdist.1 x hx).symm),
            idxGet_insert, if_pos rfl]
          simp [offsetAt]
      | j + 1 =>
          rw [mergeWrite]
          simp only [List.get, offsetAt_succ]
          rw [ih _ _ (fun x hx => hwf x (by simp [hx])) hdist.2 j (by simpa using hj)]
          congr 1
          rw [List.length_append, encode_length_of_wf (hwf e (by simp))]
          omega

theorem loadIndex_spec (rest : List Entry) (hwf : WFLog rest) :
    ∀ fuel, rest.length < fuel → ∀ (pre : List Nat) (idx : Index),
      loadIndex fuel (pre ++ encodeLog rest) idx pre.length
        = .ok (rest.foldl replayStep (idx, pre.length)) := by
  induction rest with
  | nil =>
      intro fuel hfuel pre idx
      match fuel, hfuel with
      | f + 1, _ =>
        rw [loadIndex]
        have hre : readAt (pre ++ encodeLog []) pre.length = .error .EOF := by
          rw [readAt, encodeLog, List.append_nil, List.drop_length]
          exact readBytes_nil
        rw [hre]
        rfl
  | cons e rest' ih =>
      intro fuel hfuel pre idx
      match fuel, hfuel with
      | f + 1, hfuel =>
        rw [loadIndex]
        have hr : readAt (pre ++ encodeLog (e :: rest')) pre.length = .ok e := by
          have h0 := readAt_encodeLog_pre hwf pre 0 (by simp)
          simpa using h0
        simp only [hr]
        have hwf' : WFLog rest' := fun x hx => hwf x (by simp [hx])
        have hassoc : pre ++ encodeLog (e :: rest')
            = (pre ++ e.encode) ++ encodeLog rest' := by
          simp [encodeLog, List.append_assoc]
        have hlen : pre.length + e.size = (pre ++ e.encode).length := by
          rw [List.length_append, encode_length_of_wf (hwf e (by simp))]
        have hfl : rest'.length < f := by
          simp only [List.length_cons] at hfuel
          omega
        rw [List.foldl_cons]
        cases he : e.kind
        · rw [show replayStep (idx, pre.length) e
              = (idxInsert idx e.key pre.length, pre.length + e.size) by
              simp [replayStep, he]]
          rw [hassoc, hlen]
          exact ih hwf' f hfl (pre ++ e.encode) (idxInsert idx e.key pre.length)
        · rw [show replayStep (idx, pre.length) e
              = (idxRemove idx e.key, pre.length + e.size) by
              simp [replayStep, he]]
          rw [hassoc, hlen]
          exact ih hwf' f hfl (pre ++ e.encode) (idxRemove idx e.key)

theorem mergeScan_spec (rest : List Entry) (hwf : WFLog rest) (idxS : Index) :
    ∀ fuel, rest.length < fuel → ∀ (pre : List Nat) (acc : List Entry),
      mergeScan fuel (pre ++ encodeLog rest) idxS pre.length acc
        = .ok (acc ++ ((withOffsets rest pre.length).filter
            (fun p => decide (p.2.kind = CmdKind.PUT
              ∧ idxGet idxS p.2.key = some p.1))).map Prod.snd) := by
  induction rest with
  | nil =>
      intro fuel hfuel pre acc
      match fuel, hfuel with
      | f + 1, _ =>
        rw [mergeScan]
        have hre : readAt (pre ++ encodeLog []) pre.length = .error .EOF := by
          rw [readAt, encodeLog, List.append_nil, List.drop_length]
          exact readBytes_nil
        rw [hre]
        simp [withOffsets]
  | cons e rest' ih =>
      intro fuel hfuel pre acc
      match fuel, hfuel with
      | f + 1, hfuel =>
        rw [mergeScan]
        have hr : readAt (pre ++ encodeLog (e :: rest')) pre.length = .ok e := by
          have h0 := readAt_encodeLog_pre hwf pre 0 (by simp)
          simpa using h0
        simp only [hr]
        have hwf' : WFLog rest' := fun x hx => hwf x (by simp [hx])
        have hassoc : pre ++ encodeLog (e :: rest')
            = (pre ++ e.encode) ++ encodeLog rest' := by
          simp [encodeLog, List.append_assoc]
        have hlen : pre.length + e.size = (pre ++ e.encode).length := by
          rw [List.length_append, encode_length_of_wf (hwf e (by simp))]
        have hfl : rest'.length < f := by
          simp only [List.length_cons] at hfuel
          omega
        rw [withOffsets]
        by_cases hc : e.kind = CmdKind.PUT ∧ idxGet idxS e.key = some pre.length
        · rw [if_pos hc, List.filter_cons_of_pos (by simpa using hc)]
          rw [hassoc, hlen, ih hwf' f hfl (pre ++ e.encode) (acc ++ [e])]
          simp [List.append_assoc]
        · rw [if_neg hc, List.filter_cons_of_neg (by simpa using hc)]
          rw [hassoc, hlen, ih hwf' f hfl (pre ++ e.encode) acc]

theorem mergeScan_run (rest : List Entry) (hwf : WFLog rest) (idxS : Index)
    (fuel : Nat) (hfuel : rest.length < fuel) (file : List Nat)
    (hfile : file = encodeLog rest) (live : List Entry)
    (hlive : ((withOffsets rest 0).filter
      (fun p => decide (p.2.kind = CmdKind.PUT
        ∧ idxGet idxS p.2.key = some p.1))).map Prod.snd = live) :
    mergeScan fuel file idxS 0 [] = .ok live := by
  subst hfile
  subst hlive
  have h0 := mergeScan_spec rest hwf idxS fuel hfuel [] []
  simpa using h0

theorem loadIndex_run (rest : List Entry) (hwf : WFLog rest) (fuel : Nat)
    (hfuel : rest.length < fuel) (file : List Nat)
    (hfile : file = encodeLog rest) (p : Index × Nat)
    (hp : rest.foldl replayStep ([], 0) = p) :
    loadIndex fuel file [] 0 = .ok p := by
  subst hfile
  subst hp
  have h0 := loadIndex_spec rest hwf fuel hfuel [] []
  simpa using h0

theorem withOffsets_length (log : List Entry) (b : Nat) :
    (withOffsets log b).length = log.length := by
  induction log generalizing b with
  | nil => rfl
  | cons e rest ih => simp [withOffsets, ih]

theorem withOffsets_get (log : List Entry) (b : Nat) :
    ∀ i (hi : i < log.length),
      (withOffsets log b).get ⟨i, by rw [withOffsets_length]; exact hi⟩
        = (b + offsetAt log i, log.get ⟨i, hi⟩) := by
  induction log generalizing b with
  | nil => intro i hi; simp at hi
  | cons e rest ih =>
      intro i hi
      match i with
      | 0 => simp [withOffsets, List.get, offsetAt]
      | i + 1 =>
          simp only [withOffsets, List.get, offsetAt_succ]
          rw [ih (b + e.size) i (by simpa using hi)]
          congr 1
          omega

theorem withOffsets_map_snd (log : List Entry) (b : Nat) :
    (withOffsets log b).map Prod.snd = log := by
  induction log generalizing b with
  | nil => rfl
  | cons e rest ih => simp [withOffsets, ih]

theorem withOffsets_mem_le {log : List Entry} {b : Nat} {p : Nat × Entry}
    (h : p ∈ withOffsets log b) : b ≤ p.1 := by
  induction log generalizing b with
  | nil => simp [withOffsets] at h
  | cons e rest ih =>
      rw [withOffsets, List.mem_cons] at h
      rcases h with h | h
      · subst h; exact Nat.le_refl _
      · have := ih h
        have := entry_size_pos e
        omega

theorem withOffsets_pairwise_lt (log : List Entry) (b : Nat) :
    (withOffsets log b).Pairwise (fun p q => p.1 < q.1) := by
  induction log generalizing b with
  | nil => exact List.Pairwise.nil
  | cons e rest ih =>
      rw [withOffsets, List.pairwise_cons]
      refine ⟨fun q hq => ?_, ih (b + e.size)⟩
      have := withOffsets_mem_le hq
      have := entry_size_pos e
      simp only []
      omega

theorem withOffsets_mem {log : List Entry} {b : Nat} {p : Nat × Entry}
    (h : p ∈ withOffsets log b) :
    ∃ i, ∃ hi : i < log.length,
      p = (b + offsetAt log i, log.get ⟨i, hi⟩) := by
  rw [List.mem_iff_get] at h
  obtain ⟨⟨i, hlen⟩, hget⟩ := h
  have hi : i < log.length := by rwa [withOffsets_length] at hlen
  exact ⟨i, hi, by rw [← hget, withOffsets_get log b i hi]⟩

theorem withOffsets_mem_of (log : List Entry) (b : Nat) (i : Nat)
    (hi : i < log.length) :
    (b + offsetAt log i, log.get ⟨i, hi⟩) ∈ withOffsets log b := by
  rw [← withOffsets_get log b i hi]
  exact List.get_mem _ _ _

theorem live_mem {idx : Index} {log : List Entry} {p : Nat × Entry}
    (h : p ∈ liveRecords idx log) :
    ∃ i, ∃ hi : i < log.length,
      p = (offsetAt log i, log.get ⟨i, hi⟩)
        ∧ (log.get ⟨i, hi⟩).kind = CmdKind.PUT
        ∧ idxGet idx (log.get ⟨i, hi⟩).key = some (offsetAt log i) := by
  rw [liveRecords, List.mem_filter] at h
  obtain ⟨hmem, hcond⟩ := h
  obtain ⟨i, hi, hp⟩ := withOffsets_mem hmem
  rw [Nat.zero_add] at hp
  refine ⟨i, hi, hp, ?_, ?_⟩
  · have := of_decide_eq_true hcond
    rw [hp] at this
    exact this.1
  · have := of_decide_eq_true hcond
    rw [hp] at this
    exact this.2

theorem live_complete {idx : Index} {log : List Entry} (i : Nat)
    (hi : i < log.length) (hput : (log.get ⟨i, hi⟩).kind = CmdKind.PUT)
    (hidx : idxGet idx (log.get ⟨i, hi⟩).key = some (offsetAt log i)) :
    (offsetAt log i, log.get ⟨i, hi⟩) ∈ liveRecords idx log := by
  rw [liveRecords, List.mem_filter]
  constructor
  · have := withOffsets_mem_of log 0 i hi
    rwa [Nat.zero_add] at this
  · exact decide_eq_true (by exact ⟨hput, hidx⟩)

theorem live_pairwise_keys (idx : Index) (log : List Entry) :
    (liveRecords idx log).Pairwise (fun p q => p.2.key ≠ q.2.key) := by
  have hlt : (liveRecords idx log).Pairwise (fun p q => p.1 < q.1) :=
    List.Pairwise.filter _ (withOffsets_pairwise_lt log 0)
  refine hlt.imp_of_mem ?_
  intro a b ha hb hab hkey
  rw [liveRecords, List.mem_filter] at ha hb
  have hca := of_decide_eq_true ha.2
  have hcb := of_decide_eq_true hb.2
  rw [hkey] at hca
  rw [hca.2] at hcb
  have : a.1 = b.1 := Option.some.inj hcb.2.symm |>.symm
  omega

theorem totalSize_sublist {l1 l2 : List Entry} (h : l1.Sublist l2) :
    totalSize l1 ≤ totalSize l2 := by
  induction h with
  | slnil => exact Nat.le_refl _
  | cons e _ ih =>
      rw [totalSize]
      have := entry_size_pos e
      omega
  | cons₂ e _ ih =>
      rw [totalSize, totalSize]
      omega

theorem live_entries_sublist (idx : Index) (log : List Entry) :
    ((liveRecords idx log).map Prod.snd).Sublist log := by
  have h1 : (liveRecords idx log).Sublist (withOffsets log 0) :=
    List.filter_sublist _
  have h2 := h1.map Prod.snd
  rwa [withOffsets_map_snd] at h2

theorem idxGet_nil (k : List Nat) : idxGet [] k = none := rfl

theorem fidelity_of {idx : Index} {log : List Entry} (hpe : pointwiseEq idx (replayIdx log))
    {k : List Nat} {off : Nat} (h : idxGet idx k = some off) :
    ∃ i, ∃ hi : i < log.length, offsetAt log i = off
      ∧ (log.get ⟨i, hi⟩).kind = CmdKind.PUT ∧ (log.get ⟨i, hi⟩).key = k := by
  have h2 : idxGet (replayIdx log) k = some off := by rw [← hpe k]; exact h
  rw [replayIdx] at h2
  rcases replay_sound log [] 0 k off h2 with ⟨i, hi, hoff, hput, hkey⟩ | hbase
  · exact ⟨i, hi, by simpa using hoff, hput, hkey⟩
  · rw [idxGet_nil] at hbase
    exact absurd hbase (by simp)

theorem disk_flushed {s : SimplifiedBitcask} (h : s.flushed = s.file.length) :
    s.disk = s.file := by
  rw [SimplifiedBitcask.disk, h, List.take_length]

theorem replicate_getD_zero (k i : Nat) : (List.replicate k (0 : Nat)).getD i 0 = 0 := by
  induction k generalizing i with
  | zero => cases i <;> rfl
  | succ k ih =>
      cases i with
      | zero => rfl
      | succ i => exact ih i

theorem readBytes_short {xs : List Nat} (hlen : xs.length < ENTRY_HEAD_LEN) :
    readBytes xs = .error .EOF ∨ readBytes xs = .error .ReprDecode := by
  simp only [readBytes]
  have hmin : min ENTRY_HEAD_LEN xs.length = xs.length :=
    min_eq_right (Nat.le_of_lt hlen)
  rw [hmin]
  by_cases h0 : xs.length = 0
  · rw [if_pos h0]
    left
    rfl
  · rw [if_neg h0, List.take_length]
    have hgd : (xs ++ List.replicate (ENTRY_HEAD_LEN - xs.length) 0).getD
        (USIZE_LEN * 2) 0 = 0 := by
      rw [List.getD_append_right xs _ 0 (USIZE_LEN * 2) ?hle]
      case hle =>
        rw [ENTRY_HEAD_LEN] at hlen
        omega
      exact replicate_getD_zero _ _
    rw [Entry.decode, if_pos ?hlen17]
    case hlen17 =>
      rw [List.length_append, List.length_replicate]
      omega
    rw [hgd]
    rw [show decodeKind 0 = none from rfl]
    right
    rfl

theorem readBytes_take_ok {r : List Nat} {m : Nat} {e : Entry}
    (h : readBytes (r.take m) = .ok e) : readBytes r = .ok e := by
  by_cases h17 : ENTRY_HEAD_LEN ≤ min m r.length
  case neg =>
    have hshort : (r.take m).length < ENTRY_HEAD_LEN := by
      rw [List.length_take]
      exact not_le.mp h17
    rcases readBytes_short hshort with hs | hs <;> rw [hs] at h <;>
      exact absurd h (by simp)
  case pos =>
    have hm : ENTRY_HEAD_LEN ≤ m := le_trans h17 (min_le_left _ _)
    have hrr : ENTRY_HEAD_LEN ≤ r.length := le_trans h17 (min_le_right _ _)
    have hm17 : min ENTRY_HEAD_LEN (r.take m).length = ENTRY_HEAD_LEN := by
      rw [List.length_take]
      exact min_eq_left h17
    have hm17r : min ENTRY_HEAD_LEN r.length = ENTRY_HEAD_LEN := min_eq_left hrr
    have hhead : (r.take m).take ENTRY_HEAD_LEN = r.take ENTRY_HEAD_LEN := by
      rw [List.take_take, min_eq_left hm]
    have hbody : (r.take m).drop ENTRY_HEAD_LEN
        = (r.drop ENTRY_HEAD_LEN).take (m - ENTRY_HEAD_LEN) :=
      List.drop_take m ENTRY_HEAD_LEN r
    simp only [readBytes] at h ⊢
    rw [hm17] at h
    rw [hm17r]
    rw [if_neg (by decide : ¬ (ENTRY_HEAD_LEN = 0))] at h ⊢
    rw [Nat.sub_self, List.replicate_zero, List.append_nil] at h ⊢
    rw [hhead, hbody] at h
    cases hdec : Entry.decode (r.take ENTRY_HEAD_LEN) with
    | error er =>
        rw [hdec] at h
        exact absurd h (by simp)
    | ok e0 =>
        simp only [hdec] at h ⊢
        set B := r.drop ENTRY_HEAD_LEN with hB
        by_cases hk : e0.key_len ≤ (B.take (m - ENTRY_HEAD_LEN)).length
        case neg =>
          rw [if_neg hk] at h
          exact absurd h (by simp)
        rw [if_pos hk] at h
        have hk1 : e0.key_len ≤ m - ENTRY_HEAD_LEN := by
          rw [List.length_take] at hk
          exact le_trans hk (min_le_left _ _)
        have hk2 : e0.key_len ≤ B.length := by
          rw [List.length_take] at hk
          exact le_trans hk (min_le_right _ _)
        have htk : (B.take (m - ENTRY_HEAD_LEN)).take e0.key_len
            = B.take e0.key_len := by
          rw [List.take_take, min_eq_left hk1]
        have hdk2 : (B.take (m - ENTRY_HEAD_LEN)).drop e0.key_len
            = (B.drop e0.key_len).take (m - ENTRY_HEAD_LEN - e0.key_len) :=
          List.drop_take _ _ _
        rw [htk, hdk2] at h
        by_cases hu1 : utf8Valid (B.take e0.key_len) = true
        case neg =>
          rw [if_neg hu1] at h
          exact absurd h (by simp)
        rw [if_pos hu1] at h
        by_cases hv : e0.value_len
            ≤ ((B.drop e0.key_len).take (m - ENTRY_HEAD_LEN - e0.key_len)).length
        case neg =>
          rw [if_neg hv] at h
          exact absurd h (by simp)
        rw [if_pos hv] at h
        have hv1 : e0.value_len ≤ m - ENTRY_HEAD_LEN - e0.key_len := by
          rw [List.length_take] at hv
          exact le_trans hv (min_le_left _ _)
        have hv2 : e0.value_len ≤ (B.drop e0.key_len).length := by
          rw [List.length_take] at hv
          exact le_trans hv (min_le_right _ _)
        have htv : ((B.drop e0.key_len).take (m - ENTRY_HEAD_LEN - e0.key_len)).take
            e0.value_len = (B.drop e0.key_len).take e0.value_len := by
          rw [List.take_take, min_eq_left hv1]
        rw [htv] at h
        by_cases hu2 : utf8Valid ((B.drop e0.key_len).take e0.value_len) = true
        case neg =>
          rw [if_neg hu2] at h
          exact absurd h (by simp)
        rw [if_pos hu2] at h
        rw [if_pos hk2, if_pos hu1, if_pos hv2, if_pos hu2]
        exact h

theorem readAt_take_ok {l : List Nat} {n off : Nat} {e : Entry}
    (h : readAt (l.take n) off = .ok e) : readAt l off = .ok e := by
  rw [readAt] at h ⊢
  rw [List.drop_take] at h
  exact readBytes_take_ok h

theorem readAt_disk_ok {s : SimplifiedBitcask} {off : Nat} {old : Entry}
    (h : readAt s.disk off = .ok old) : readAt s.file off = .ok old := by
  rw [SimplifiedBitcask.disk] at h
  exact readAt_take_ok h

theorem merge_spec {s : SimplifiedBitcask} (hinv : Inv s)
    (hfl : s.flushed = s.file.length) :
    ∃ s' live,
      s.merge = .ok s'
      ∧ mergeScan (s.disk.length + 1) s.disk s.index 0 [] = .ok live
      ∧ Inv s'
      ∧ s'.pending_compact = 0
      ∧ s'.file.length ≤ s.file.length
      ∧ (live = [] → s'.file = s.file ∧ s'.flushed = s.flushed)
      ∧ (live ≠ [] → s'.file = encodeLog live
          ∧ s'.flushed = flushedAfter (live.map (fun e => e.encode.length)))
      ∧ live.Pairwise (fun a b => a.key ≠ b.key)
      ∧ (∀ e ∈ live, e.kind = CmdKind.PUT ∧ ∃ o, idxGet s.index e.key = some o)
      ∧ (∀ k o, idxGet s.index k = some o → ∃ e ∈ live, e.key = k) := by
  obtain ⟨log, hfile, hwf, hwp, hidx⟩ := hinv
  have hdisk : s.disk = s.file := disk_flushed hfl
  have hfuel2 : log.length < (encodeLog log).length + 1 := by
    have h1 := length_le_totalSize log
    rw [encodeLog_length_of_wf hwf]
    omega
  have hscan : mergeScan (s.disk.length + 1) s.disk s.index 0 []
      = .ok ((liveRecords s.index log).map Prod.snd) := by
    rw [hdisk, hfile]
    have h0 := mergeScan_spec log hwf s.index ((encodeLog log).length + 1) hfuel2 [] []
    simpa [liveRecords] using h0
  set liveE := (liveRecords s.index log).map Prod.snd with hliveE
  have hwfE : WFLog liveE := by
    intro e he
    exact hwf e ((live_entries_sublist s.index log).mem he)
  have hpwE : liveE.Pairwise (fun a b => a.key ≠ b.key) := by
    rw [hliveE, List.pairwise_map]
    exact live_pairwise_keys s.index log
  have hputE : ∀ e ∈ liveE, e.kind = CmdKind.PUT ∧ ∃ o, idxGet s.index e.key = some o := by
    intro e he
    rw [hliveE, List.mem_map] at he
    obtain ⟨p, hp, hpe⟩ := he
    obtain ⟨i, hi, hpeq, hput, hio⟩ := live_mem hp
    rw [← hpe, hpeq]
    exact ⟨hput, ⟨offsetAt log i, hio⟩⟩
  have hcomp : ∀ k o, idxGet s.index k = some o → ∃ e ∈ liveE, e.key = k := by
    intro k o hk
    obtain ⟨i, hi, hoff, hput, hkey⟩ := fidelity_of hidx hk
    refine ⟨log.get ⟨i, hi⟩, ?_, hkey⟩
    rw [hliveE, List.mem_map]
    refine ⟨(offsetAt log i, log.get ⟨i, hi⟩), ?_, rfl⟩
    exact live_complete i hi hput (by rw [hkey, hoff]; exact hk)
  have hallput : ∀ e ∈ liveE, e.kind = CmdKind.PUT := fun e he => (hputE e he).1
  have hsizeE : totalSize liveE ≤ totalSize log :=
    totalSize_sublist (live_entries_sublist s.index log)
  by_cases hE : liveE = []
  · refine ⟨{ s with pending_compact := 0 }, liveE, ?_, hscan, ?_, rfl, ?_, ?_, ?_,
      hpwE, hputE, hcomp⟩
    · rw [SimplifiedBitcask.merge]
      simp only [hscan, hE]
      rfl
    · exact ⟨log, hfile, hwf, hwp, hidx⟩
    · exact Nat.le_refl _
    · intro _
      exact ⟨rfl, rfl⟩
    · intro hne
      exact absurd hE hne
  · have hmw := mergeWrite_snd liveE s.index []
    rw [List.nil_append] at hmw
    have hmerge : s.merge = .ok ⟨(mergeWrite s.index [] liveE).2,
        (mergeWrite s.index [] liveE).1,
        (mergeWrite s.index [] liveE).2.length, 0,
        flushedAfter (liveE.map (fun e => e.encode.length))⟩ := by
      rw [SimplifiedBitcask.merge]
      simp only [hscan]
      rw [if_neg (by simp [List.isEmpty_iff, hE])]
    have hnfile : (mergeWrite s.index [] liveE).2 = encodeLog liveE := hmw
    have hnew_pointwise : pointwiseEq (mergeWrite s.index [] liveE).1 (replayIdx liveE) := by
      intro k
      by_cases htouch : ∃ e ∈ liveE, e.key = k
      · obtain ⟨e, he, hek⟩ := htouch
        rw [List.mem_iff_get] at he
        obtain ⟨⟨j, hj⟩, hget⟩ := he
        have h1 := mergeWrite_get_mem liveE s.index [] hwfE hpwE j hj
        have h2 := replay_get_mem liveE [] 0 hallput hpwE j hj
        rw [hget, hek] at h1 h2
        rw [h1, replayIdx, h2]
        rfl
      · push_neg at htouch
        have huntouch : ∀ e ∈ liveE, e.key ≠ k := htouch
        rw [mergeWrite_get_untouched liveE s.index [] k huntouch,
          replayIdx, replay_get_untouched liveE [] 0 k huntouch, idxGet_nil]
        by_cases hk : idxGet s.index k = none
        · exact hk
        · obtain ⟨o, ho⟩ := Option.ne_none_iff_exists'.mp hk
          obtain ⟨e, he, hek⟩ := hcomp k o ho
          exact absurd hek (huntouch e he)
    refine ⟨_, liveE, hmerge, hscan, ?_, rfl, ?_, ?_, ?_, hpwE, hputE, hcomp⟩
    · refine ⟨liveE, by simpa using hnfile, hwfE, by simp [hnfile], hnew_pointwise⟩
    · rw [hnfile, hfile, encodeLog_length_of_wf hwfE, encodeLog_length_of_wf hwf]
      exact hsizeE
    · intro h0
      exact absurd h0 hE
    · intro _
      exact ⟨hnfile, rfl⟩

theorem readAt_last {e : Entry} (hwfe : WFEntry e) (pre : List Nat) :
    readAt (pre ++ e.encode) pre.length = .ok e := by
  rw [readAt, List.drop_left]
  have h := readBytes_encode hwfe []
  rwa [List.append_nil] at h

theorem inv_readAt {s : SimplifiedBitcask} (hinv : Inv s) {k : List Nat} {off : Nat}
    (h : idxGet s.index k = some off) :
    ∃ old, readAt s.file off = .ok old ∧ WFEntry old
      ∧ old.kind = CmdKind.PUT ∧ old.key = k := by
  obtain ⟨log, hfile, hwf, hwp, hidx⟩ := hinv
  obtain ⟨i, hi, hoff, hput, hkey⟩ := fidelity_of hidx h
  refine ⟨log.get ⟨i, hi⟩, ?_, hwf _ (log.get_mem i hi), hput, hkey⟩
  rw [hfile, ← hoff]
  exact readAt_encodeLog hwf i hi

theorem write_eq_none {s : SimplifiedBitcask} {e : Entry}
    (h : idxGet s.index e.key = none) :
    s.write e = .ok ⟨s.file ++ e.encode, idxInsert s.index e.key s.writerPos,
      s.writerPos + e.encode.length, s.pending_compact,
      (s.file ++ e.encode).length⟩ := by
  rw [SimplifiedBitcask.write, h]

theorem write_eq_some {s : SimplifiedBitcask} {e : Entry} {off : Nat} {old : Entry}
    (h : idxGet s.index e.key = some off) (hr : readAt s.disk off = .ok old) :
    s.write e = .ok ⟨s.file ++ e.encode, idxInsert s.index e.key s.writerPos,
      s.writerPos + e.encode.length, s.pending_compact + old.size,
      (s.file ++ e.encode).length⟩ := by
  rw [SimplifiedBitcask.write]
  simp only [h, hr]

theorem write_eq_panic {s : SimplifiedBitcask} {e : Entry} {off : Nat}
    {er : KvsError} (h : idxGet s.index e.key = some off)
    (hr : readAt s.disk off = .error er) :
    s.write e = .error .panicked := by
  rw [SimplifiedBitcask.write]
  simp only [h, hr]

theorem write_ok_shape {s : SimplifiedBitcask} {e : Entry} {s1 : SimplifiedBitcask}
    (hw : s.write e = .ok s1) :
    s1.file = s.file ++ e.encode
    ∧ s1.index = idxInsert s.index e.key s.writerPos
    ∧ s1.writerPos = s.writerPos + e.encode.length
    ∧ s1.flushed = (s.file ++ e.encode).length
    ∧ (idxGet s.index e.key = none → s1.pending_compact = s.pending_compact)
    ∧ (∀ off old, idxGet s.index e.key = some off → readAt s.disk off = .ok old →
        s1.pending_compact = s.pending_compact + old.size) := by
  cases hold : idxGet s.index e.key with
  | none =>
      rw [write_eq_none hold] at hw
      injection hw with hw
      rw [← hw]
      refine ⟨rfl, rfl, rfl, rfl, fun _ => rfl, ?_⟩
      intro off old hsome hread
      exact absurd hsome (by simp)
  | some off =>
      cases hre : readAt s.disk off with
      | ok old =>
          rw [write_eq_some hold hre] at hw
          injection hw with hw
          rw [← hw]
          refine ⟨rfl, rfl, rfl, rfl, ?_, ?_⟩
          · intro hnone
            exact absurd hnone (by simp)
          · intro off' old' hsome hread
            injection hsome with hsome
            rw [← hsome] at hread
            rw [hre] at hread
            injection hread with hread
            show s.pending_compact + old.size = s.pending_compact + old'.size
            rw [hread]
      | error er =>
          rw [write_eq_panic hold hre] at hw
          exact absurd hw (by simp)

theorem write_ok_some_read {s : SimplifiedBitcask} {e : Entry} {off : Nat}
    {s1 : SimplifiedBitcask} (h : idxGet s.index e.key = some off)
    (hw : s.write e = .ok s1) :
    ∃ old, readAt s.disk off = .ok old
      ∧ s1.pending_compact = s.pending_compact + old.size := by
  cases hre : readAt s.disk off with
  | ok old =>
      rw [write_eq_some h hre] at hw
      injection hw with hw
      exact ⟨old, rfl, by rw [← hw]⟩
  | error er =>
      rw [write_eq_panic h hre] at hw
      exact absurd hw (by simp)

theorem wfentry_new_put {k v : List Nat} (hk : WFStr k) (hv : WFStr v) :
    WFEntry (Entry.new k v CmdKind.PUT) :=
  ⟨rfl, rfl, hk, hv⟩

theorem wfentry_new_del {k : List Nat} (hk : WFStr k) :
    WFEntry (Entry.new k [] CmdKind.DEL) :=
  ⟨rfl, rfl, hk, ⟨rfl, by show (0 : Nat) < 256 ^ USIZE_LEN; positivity⟩⟩

theorem write_inv_put {s : SimplifiedBitcask} {k v : List Nat} {s1 : SimplifiedBitcask}
    (hinv : Inv s) (hk : WFStr k) (hv : WFStr v)
    (hw : s.write (Entry.new k v CmdKind.PUT) = .ok s1) :
    Inv s1 ∧ s1.file = s.file ++ (Entry.new k v CmdKind.PUT).encode
      ∧ (∀ k', idxGet s1.index k'
          = if k' = k then some s.file.length else idxGet s.index k')
      ∧ s1.get k = .ok (some v)
      ∧ s1.flushed = s1.file.length := by
  obtain ⟨log, hfile, hwf, hwp, hidx⟩ := hinv
  set e := Entry.new k v CmdKind.PUT with he
  have hwfe : WFEntry e := wfentry_new_put hk hv
  obtain ⟨hf1, hi1, hwp1, hfl1, -, -⟩ := write_ok_shape hw
  have hfl1' : s1.flushed = s1.file.length := by rw [hfl1, hf1]
  have hekey : e.key = k := rfl
  have hnewfile : encodeLog (log ++ [e]) = s.file ++ e.encode := by
    rw [encodeLog_append, hfile, encodeLog, encodeLog, List.append_nil]
  have hsnd : (log.foldl replayStep ([], 0)).2 = totalSize log := by
    have h0 := replay_snd log [] 0
    simpa using h0
  have hwf1 : WFLog (log ++ [e]) := by
    intro x hx
    rcases List.mem_append.mp hx with h | h
    · exact hwf x h
    · simp at h
      subst h
      exact hwfe
  have hpoint : ∀ k', idxGet s1.index k'
      = if k' = k then some s.file.length else idxGet s.index k' := by
    intro k'
    rw [hi1, idxGet_insert, hekey, hwp]
  have hinv1 : Inv s1 := by
    refine ⟨log ++ [e], by rw [hf1, hnewfile], hwf1, ?_, ?_⟩
    · rw [hwp1, hf1, List.length_append, hwp]
    · intro k'
      rw [hpoint k', replayIdx, List.foldl_append]
      rw [show (log.foldl replayStep ([], 0)) = ((log.foldl replayStep ([], 0)).1,
        totalSize log) by rw [← hsnd]]
      rw [List.foldl_cons, List.foldl_nil]
      rw [show replayStep ((log.foldl replayStep ([], 0)).1, totalSize log) e
          = (idxInsert (log.foldl replayStep ([], 0)).1 e.key (totalSize log),
             totalSize log + e.size) by rfl]
      rw [idxGet_insert, hekey]
      by_cases hkk : k' = k
      · rw [if_pos hkk, if_pos hkk, hfile, encodeLog_length_of_wf hwf]
      · rw [if_neg hkk, if_neg hkk, hidx k', replayIdx]
  have hget : s1.get k = .ok (some v) := by
    have hr : readAt s1.disk s.file.length = .ok e := by
      rw [disk_flushed hfl1', hf1]
      exact readAt_last hwfe s.file
    have hidx1 : idxGet s1.index k = some s.file.length := by
      rw [hpoint k, if_pos rfl]
    rw [SimplifiedBitcask.get, SimplifiedBitcask.read]
    simp only [hidx1, hr]
    rfl
  exact ⟨hinv1, hf1, hpoint, hget, hfl1'⟩

theorem put_inv {s : SimplifiedBitcask} {k v : List Nat} {s' : SimplifiedBitcask}
    (hinv : Inv s) (hk : WFStr k) (hv : WFStr v)
    (hput : s.put k v = .ok s') : Inv s' := by
  rw [SimplifiedBitcask.put] at hput
  cases hw : s.write (Entry.new k v CmdKind.PUT) with
  | error er =>
      rw [hw] at hput
      exact absurd hput (by simp)
  | ok s1 =>
      simp only [hw] at hput
      obtain ⟨hinv1, _, _, _, hfl1⟩ := write_inv_put hinv hk hv hw
      by_cases hpc : s1.pending_compact ≥ COMPACTION_THRESHOLD
      · rw [if_pos hpc] at hput
        obtain ⟨s2, live, hm, _, hinv2, _⟩ := merge_spec hinv1 hfl1
        rw [hput] at hm
        injection hm with hm
        rw [hm]
        exact hinv2
      · rw [if_neg hpc] at hput
        injection hput with hput
        rw [← hput]
        exact hinv1

theorem remove_absent {s : SimplifiedBitcask} {k : List Nat}
    (h : idxGet s.index k = none) : s.remove k = .error .KeyNotFound := by
  rw [SimplifiedBitcask.remove, if_neg (by simp [h])]

theorem remove_state_inv {s : SimplifiedBitcask} {k : List Nat} (pc : Nat)
    (hinv : Inv s) (hks : WFStr k) :
    Inv ⟨s.file ++ (Entry.new k [] CmdKind.DEL).encode,
      idxRemove (idxInsert s.index (Entry.new k [] CmdKind.DEL).key s.writerPos) k,
      s.writerPos + (Entry.new k [] CmdKind.DEL).encode.length, pc,
      (s.file ++ (Entry.new k [] CmdKind.DEL).encode).length⟩ := by
  obtain ⟨log, hfile, hwf, hwp, hidx⟩ := hinv
  set e := Entry.new k [] CmdKind.DEL with hedef
  have hwfe : WFEntry e := wfentry_new_del hks
  have hekey : e.key = k := rfl
  have hwf1 : WFLog (log ++ [e]) := by
    intro x hx
    rcases List.mem_append.mp hx with hmem | hmem
    · exact hwf x hmem
    · simp at hmem
      subst hmem
      exact hwfe
  have hnewfile : encodeLog (log ++ [e]) = s.file ++ e.encode := by
    rw [encodeLog_append, hfile, encodeLog, encodeLog, List.append_nil]
  have hsnd : (log.foldl replayStep ([], 0)).2 = totalSize log := by
    have h0 := replay_snd log [] 0
    simpa using h0
  have hpoint : ∀ k', idxGet (idxRemove (idxInsert s.index e.key s.writerPos) k) k'
      = if k' = k then none else idxGet s.index k' := by
    intro k'
    rw [idxGet_remove, idxGet_insert, hekey]
    by_cases hkk : k' = k
    · rw [if_pos hkk, if_pos hkk]
    · rw [if_neg hkk, if_neg hkk, if_neg hkk]
  refine ⟨log ++ [e], by simpa using hnewfile.symm, hwf1, ?_, ?_⟩
  · show s.writerPos + e.encode.length = (s.file ++ e.encode).length
    rw [List.length_append, hwp]
  · intro k'
    show idxGet (idxRemove (idxInsert s.index e.key s.writerPos) k) k'
        = idxGet (replayIdx (log ++ [e])) k'
    rw [hpoint k', replayIdx, List.foldl_append]
    rw [show (log.foldl replayStep ([], 0)) = ((log.foldl replayStep ([], 0)).1,
      totalSize log) by rw [← hsnd]]
    rw [List.foldl_cons, List.foldl_nil]
    rw [show replayStep ((log.foldl replayStep ([], 0)).1, totalSize log) e
        = (idxRemove (log.foldl replayStep ([], 0)).1 e.key,
           totalSize log + e.size) by rfl]
    rw [idxGet_remove, hekey]
    by_cases hkk : k' = k
    · rw [if_pos hkk, if_pos hkk]
    · rw [if_neg hkk, if_neg hkk, hidx k', replayIdx]

theorem remove_inv {s : SimplifiedBitcask} {k : List Nat} {s' : SimplifiedBitcask}
    (hinv : Inv s) (hrem : s.remove k = .ok s') : Inv s' := by
  cases hk : idxGet s.index k with
  | none =>
      rw [remove_absent hk] at hrem
      exact absurd hrem (by simp)
  | some off =>
      have hks : WFStr k := by
        obtain ⟨old, _, hwfold, _, hkeyo⟩ := inv_readAt hinv hk
        rw [← hkeyo]
        exact hwfold.2.2.1
      rw [SimplifiedBitcask.remove, if_pos (by simp [hk])] at hrem
      cases hw : s.write (Entry.new k [] CmdKind.DEL) with
      | error er =>
          rw [hw] at hrem
          exact absurd hrem (by simp)
      | ok s1 =>
          simp only [hw] at hrem
          injection hrem with hrem
          obtain ⟨hf1, hi1, hw1, hfl1, -, -⟩ := write_ok_shape hw
          obtain ⟨f1, i1, w1, p1, fl1⟩ := s1
          simp only at hf1 hi1 hw1 hfl1
          have hs' : s' = ⟨s.file ++ (Entry.new k [] CmdKind.DEL).encode,
              idxRemove (idxInsert s.index (Entry.new k [] CmdKind.DEL).key
                s.writerPos) k,
              s.writerPos + (Entry.new k [] CmdKind.DEL).encode.length, p1,
              (s.file ++ (Entry.new k [] CmdKind.DEL).encode).length⟩ := by
            rw [← hrem, hf1, hi1, hw1, hfl1]
          rw [hs']
          exact remove_state_inv p1 hinv hks

theorem openStore_spec {s : SimplifiedBitcask} (hinv : Inv s) :
    ∃ s', openStore s.file = .ok s'
      ∧ Inv s'
      ∧ s'.file = s.file
      ∧ s'.pending_compact = 0
      ∧ s'.flushed = s'.file.length
      ∧ (∀ k, idxGet s'.index k = idxGet s.index k)
      ∧ (s.flushed = s.file.length → ∀ k, s'.get k = s.get k) := by
  obtain ⟨log, hfile, hwf, hwp, hidx⟩ := hinv
  have hfuel : log.length < (encodeLog log).length + 1 := by
    have h1 := length_le_totalSize log
    rw [encodeLog_length_of_wf hwf]
    omega
  have hload : loadIndex (s.file.length + 1) s.file [] 0
      = .ok (log.foldl replayStep ([], 0)) := by
    rw [hfile]
    have h0 := loadIndex_spec log hwf ((encodeLog log).length + 1) hfuel [] []
    simpa using h0
  have hopen : openStore s.file = .ok ⟨s.file, (log.foldl replayStep ([], 0)).1,
      (log.foldl replayStep ([], 0)).2, 0, s.file.length⟩ := by
    rw [openStore]
    simp only [hload]
  have hsnd : (log.foldl replayStep ([], 0)).2 = totalSize log := by
    have h0 := replay_snd log [] 0
    simpa using h0
  have hpoint : ∀ k, idxGet (log.foldl replayStep ([], 0)).1 k = idxGet s.index k :=
    fun k => (hidx k).symm
  refine ⟨_, hopen, ?_, rfl, rfl, rfl, hpoint, ?_⟩
  · refine ⟨log, hfile, hwf, ?_, fun k => rfl⟩
    show (log.foldl replayStep ([], 0)).2 = s.file.length
    rw [hsnd, hfile, encodeLog_length_of_wf hwf]
  · intro hfl k
    have hd1 : SimplifiedBitcask.disk ⟨s.file, (log.foldl replayStep ([], 0)).1,
        (log.foldl replayStep ([], 0)).2, 0, s.file.length⟩ = s.file :=
      disk_flushed rfl
    have hd2 : s.disk = s.file := disk_flushed hfl
    show SimplifiedBitcask.get _ k = s.get k
    rw [SimplifiedBitcask.get, SimplifiedBitcask.get,
      SimplifiedBitcask.read, SimplifiedBitcask.read, hpoint k, hd1, hd2]

theorem merge_pc {s s' : SimplifiedBitcask} (h : s.merge = .ok s') :
    s'.pending_compact = 0 := by
  rw [SimplifiedBitcask.merge] at h
  split at h
  · simp at h
  · split at h
    · injection h with h
      rw [← h]
    · injection h with h
      rw [← h]

theorem put_pc_lt {s s' : SimplifiedBitcask} {k v : List Nat}
    (h : s.put k v = .ok s') : s'.pending_compact < COMPACTION_THRESHOLD := by
  rw [SimplifiedBitcask.put] at h
  split at h
  · split at h
    · have h0 := merge_pc h
      rw [h0]
      show (0 : Nat) < COMPACTION_THRESHOLD
      rw [COMPACTION_THRESHOLD]
      omega
    · next hlt =>
        injection h with h
        rw [← h]
        omega
  · simp at h

theorem reachable_inv {s : SimplifiedBitcask} (h : Reachable s) : Inv s := by
  induction h with
  | init =>
      refine ⟨[], rfl, ?_, rfl, fun k => rfl⟩
      intro e he
      simp at he
  | set hr hk hv hput ih => exact put_inv ih hk hv hput
  | rm hr hrem ih => exact remove_inv ih hrem
  | reopen hr hopen ih =>
      obtain ⟨s2, ho2, hinv2, _⟩ := openStore_spec ih
      rw [hopen] at ho2
      injection ho2 with ho2
      rw [ho2]
      exact hinv2

theorem sampleState_reachable : Reachable sampleState :=
  @Reachable.set SimplifiedBitcask.empty sampleState [97] [98]
    Reachable.init (by decide) (by decide) (by decide)

theorem utf8Valid_ascii {l : List Nat} (h : ∀ b ∈ l, b ≤ 0x7F) :
    utf8Valid l = true := by
  induction l with
  | nil => rfl
  | cons b rest ih =>
      have hb : b ≤ 0x7F := h b (by simp)
      rw [utf8Valid.eq_def]
      simp only [if_pos hb]
      exact ih fun x hx => h x (by simp [hx])

theorem openStore_pc {f : List Nat} {s' : SimplifiedBitcask}
    (h : openStore f = .ok s') : s'.pending_compact = 0 := by
  rw [openStore] at h
  split at h
  · injection h with h
    rw [← h]
  · simp at h

theorem hugeValue_wf : WFStr hugeValue := by
  constructor
  · exact utf8Valid_ascii fun b hb => by
      rw [List.eq_of_mem_replicate hb]
      norm_num
  · rw [hugeValue, List.length_replicate, USIZE_LEN]
    norm_num

set_option maxHeartbeats 1000000 in
/-- The two-`set` run that exhibits the unflushed-merge window:
`set("k", 65519-byte value)` then `set("k", "b")`.  The second `set`
supersedes a 65537-byte record, pushing `pending_compact` to the
compaction threshold, so it merges before returning `Ok`; the single live
19-byte record stays in the merge writer''s buffer, the on-disk active
file is empty, and from that state `get` returns `EOF`, `remove` and any
superseding `write` hit the `.unwrap()` panic, while a clean reopen (which
flushes) restores the value. -/
theorem flushBugRun :
    ∃ s1 sW sM sO : SimplifiedBitcask,
      SimplifiedBitcask.empty.put [107] hugeValue = .ok s1
      ∧ Reachable s1
      ∧ s1.write (Entry.new [107] [98] CmdKind.PUT) = .ok sW
      ∧ sW.get [107] = .ok (some [98])
      ∧ sW.merge = .ok sM
      ∧ s1.put [107] [98] = .ok sM
      ∧ Reachable sM
      ∧ idxGet sM.index [107] = some 0
      ∧ sM.disk = []
      ∧ sM.file ≠ []
      ∧ sM.get [107] = .error .EOF
      ∧ sM.remove [107] = .error .panicked
      ∧ (∀ v, sM.write (Entry.new [107] v CmdKind.PUT) = .error .panicked)
      ∧ openStore sM.file = .ok sO
      ∧ sO.get [107] = .ok (some [98]) := by
  have hwk : WFStr [107] := by decide
  have hwfv1 : WFStr hugeValue := hugeValue_wf
  set e1 := Entry.new [107] hugeValue CmdKind.PUT with he1
  set e2 := Entry.new [107] ([98] : List Nat) CmdKind.PUT with he2
  have hwf1 : WFEntry e1 := wfentry_new_put hwk hwfv1
  have hwf2 : WFEntry e2 := wfentry_new_put hwk (by decide)
  have hsz1 : e1.size = 65537 := by
    rw [Entry.size, show e1.key_len = 1 from rfl,
      show e1.value_len = hugeValue.length from rfl, hugeValue,
      List.length_replicate, ENTRY_HEAD_LEN, USIZE_LEN]
  have henc1 : e1.encode.length = 65537 := by
    rw [encode_length_of_wf hwf1, hsz1]
  have hsz2 : e2.size = 19 := by
    rw [Entry.size, show e2.key_len = 1 from rfl,
      show e2.value_len = 1 from rfl, ENTRY_HEAD_LEN, USIZE_LEN]
  have henc2 : e2.encode.length = 19 := by
    rw [encode_length_of_wf hwf2, hsz2]
  obtain ⟨S1, hw1⟩ : ∃ s, SimplifiedBitcask.empty.write e1 = .ok s :=
    ⟨_, write_eq_none rfl⟩
  obtain ⟨hf1, hi1, hwp1, hfl1, hpn1, -⟩ := write_ok_shape hw1
  have hpc1 : S1.pending_compact = 0 := hpn1 rfl
  have hflen1 : S1.flushed = S1.file.length := by rw [hfl1, hf1]
  have hdisk1 : S1.disk = S1.file := disk_flushed hflen1
  have hidx1 : idxGet S1.index [107] = some 0 := by
    rw [hi1, idxGet_insert, if_pos (show ([107] : List Nat) = e1.key from rfl)]
    rfl
  have hread1 : readAt S1.disk 0 = .ok e1 := by
    rw [hdisk1, hf1]
    have h := readAt_last hwf1 SimplifiedBitcask.empty.file
    rw [show SimplifiedBitcask.empty.file.length = 0 from rfl] at h
    exact h
  have hputS1 : SimplifiedBitcask.empty.put [107] hugeValue = .ok S1 := by
    rw [SimplifiedBitcask.put, ← he1]
    simp only [hw1]
    rw [if_neg ?hpc]
    case hpc =>
      rw [hpc1]
      decide
  have hr1 : Reachable S1 := Reachable.set Reachable.init hwk hwfv1 hputS1
  have hwp1n : S1.writerPos = 65537 := by
    rw [hwp1, show SimplifiedBitcask.empty.writerPos = 0 from rfl, henc1,
      Nat.zero_add]
  have hwpfl : S1.writerPos = S1.file.length := by
    rw [hwp1, hf1, List.length_append,
      show SimplifiedBitcask.empty.writerPos = 0 from rfl,
      show SimplifiedBitcask.empty.file.length = 0 from rfl]
  obtain ⟨SW, hw2⟩ : ∃ s, S1.write e2 = .ok s := ⟨_, write_eq_some hidx1 hread1⟩
  obtain ⟨hf2, hi2, hwp2, hfl2, -, hps2⟩ := write_ok_shape hw2
  have hpc2 : SW.pending_compact = 0 + e1.size := by
    rw [hps2 0 e1 hidx1 hread1, hpc1]
  have hge : SW.pending_compact ≥ COMPACTION_THRESHOLD := by
    rw [hpc2, hsz1]
    decide
  have hput2eq : S1.put [107] [98] = SW.merge := by
    rw [SimplifiedBitcask.put, ← he2]
    simp only [hw2]
    rw [if_pos hge]
  have hflen2 : SW.flushed = SW.file.length := by rw [hfl2, hf2]
  have hdiskW : SW.disk = SW.file := disk_flushed hflen2
  have hfile2 : SW.file = encodeLog [e1, e2] := by
    rw [hf2, hf1]
    simp [encodeLog, SimplifiedBitcask.empty]
  have hidxk2 : idxGet SW.index [107] = some S1.writerPos := by
    rw [hi2, idxGet_insert, if_pos (show ([107] : List Nat) = e2.key from rfl)]
  have hwfL : WFLog [e1, e2] := by
    intro x hx
    simp only [List.mem_cons, List.not_mem_nil, or_false] at hx
    rcases hx with hx | hx
    · rw [hx]
      exact hwf1
    · rw [hx]
      exact hwf2
  have hwo : withOffsets [e1, e2] 0 = [(0, e1), (e1.size, e2)] := by
    simp [withOffsets]
  have hc1 : ¬ (e1.kind = CmdKind.PUT ∧ idxGet SW.index e1.key = some 0) := by
    rintro ⟨-, hcon⟩
    rw [show idxGet SW.index e1.key = some S1.writerPos from hidxk2, hwp1n] at hcon
    simp at hcon
  have hc2 : e2.kind = CmdKind.PUT ∧ idxGet SW.index e2.key = some e1.size := by
    refine ⟨rfl, ?_⟩
    rw [show idxGet SW.index e2.key = some S1.writerPos from hidxk2, hwp1n, hsz1]
  have hdiskE : SW.disk = encodeLog [e1, e2] := by
    rw [hdiskW, hfile2]
  have hfuel : ([e1, e2] : List Entry).length < SW.disk.length + 1 := by
    rw [hdiskE, encodeLog_length_of_wf hwfL]
    simp only [totalSize, hsz1, hsz2, List.length_cons, List.length_nil]
    omega
  have hlive : ((withOffsets [e1, e2] 0).filter
      (fun p => decide (p.2.kind = CmdKind.PUT
        ∧ idxGet SW.index p.2.key = some p.1))).map Prod.snd = [e2] := by
    rw [hwo, List.filter_cons_of_neg (by simpa using hc1),
      List.filter_cons_of_pos (by simpa using hc2), List.filter_nil]
    rfl
  have hscan : mergeScan (SW.disk.length + 1) SW.disk SW.index 0 [] = .ok [e2] :=
    mergeScan_run [e1, e2] hwfL SW.index (SW.disk.length + 1) hfuel SW.disk hdiskE
      [e2] hlive
  have hmerge0 : SW.merge = .ok ⟨(mergeWrite SW.index [] [e2]).2,
      (mergeWrite SW.index [] [e2]).1,
      (mergeWrite SW.index [] [e2]).2.length, 0,
      flushedAfter (([e2] : List Entry).map (fun e => e.encode.length))⟩ := by
    rw [SimplifiedBitcask.merge]
    simp only [hscan]
    rw [if_neg (by simp)]
  obtain ⟨SM, hmerge⟩ : ∃ s, SW.merge = .ok s := ⟨_, hmerge0⟩
  have hSMeq : SM = ⟨(mergeWrite SW.index [] [e2]).2,
      (mergeWrite SW.index [] [e2]).1,
      (mergeWrite SW.index [] [e2]).2.length, 0,
      flushedAfter (([e2] : List Entry).map (fun e => e.encode.length))⟩ :=
    Except.ok.inj (hmerge.symm.trans hmerge0)
  have hmwEq : mergeWrite SW.index [] [e2] = (idxInsert SW.index e2.key 0, e2.encode) :=
    rfl
  have hput2 : S1.put [107] [98] = .ok SM := by
    rw [hput2eq]
    exact hmerge
  have hreachM : Reachable SM := Reachable.set hr1 hwk (by decide) hput2
  have hSMidx : idxGet SM.index [107] = some 0 := by
    have h : SM.index = idxInsert SW.index e2.key 0 := by
      rw [hSMeq, hmwEq]
    rw [h, idxGet_insert, if_pos (show ([107] : List Nat) = e2.key from rfl)]
  have hSMfl : SM.flushed = 0 := by
    have h : SM.flushed
        = flushedAfter (([e2] : List Entry).map (fun e => e.encode.length)) := by
      rw [hSMeq]
    rw [h, List.map_cons, List.map_nil, henc2]
    decide
  have hSMdisk : SM.disk = [] := by
    rw [SimplifiedBitcask.disk, hSMfl, List.take_zero]
  have hSMfile : SM.file = e2.encode := by
    rw [hSMeq, hmwEq]
  have hSMfileNe : SM.file ≠ [] := by
    rw [hSMfile]
    intro hcon
    have h := congrArg List.length hcon
    rw [henc2] at h
    simp at h
  have hSMread : readAt SM.disk 0 = .error .EOF := by
    rw [hSMdisk]
    rfl
  have hgetM : SM.get [107] = .error .EOF := by
    rw [SimplifiedBitcask.get, SimplifiedBitcask.read]
    simp only [hSMidx, hSMread]
  have hremM : SM.remove [107] = .error .panicked := by
    rw [SimplifiedBitcask.remove, if_pos (by rw [hSMidx]; rfl)]
    simp only [write_eq_panic (e := Entry.new [107] [] CmdKind.DEL) hSMidx hSMread]
  have hwriteM : ∀ v, SM.write (Entry.new [107] v CmdKind.PUT) = .error .panicked :=
    fun v => write_eq_panic (e := Entry.new [107] v CmdKind.PUT) hSMidx hSMread
  have hgetW : SW.get [107] = .ok (some [98]) := by
    have hreadW : readAt SW.disk S1.writerPos = .ok e2 := by
      rw [hdiskW, hf2, hwpfl]
      exact readAt_last hwf2 S1.file
    rw [SimplifiedBitcask.get, SimplifiedBitcask.read]
    simp only [hidxk2, hreadW]
    rfl
  have hwfL2 : WFLog [e2] := by
    intro x hx
    simp only [List.mem_cons, List.not_mem_nil, or_false] at hx
    rw [hx]
    exact hwf2
  have hencL2 : encodeLog [e2] = e2.encode := by
    simp [encodeLog]
  have hfold : ([e2] : List Entry).foldl replayStep ([], 0)
      = (idxInsert [] e2.key 0, 0 + e2.size) := rfl
  have hfileSM2 : SM.file = encodeLog [e2] := by
    rw [hSMfile, hencL2]
  have hopen0 : openStore SM.file = .ok ⟨SM.file, idxInsert [] e2.key 0,
      0 + e2.size, 0, SM.file.length⟩ := by
    rw [openStore]
    have hfuel2 : ([e2] : List Entry).length < SM.file.length + 1 := by
      rw [hSMfile, henc2]
      simp only [List.length_cons, List.length_nil]
      omega
    have h0 := loadIndex_run [e2] hwfL2 (SM.file.length + 1) hfuel2 SM.file hfileSM2
      (idxInsert [] e2.key 0, 0 + e2.size) hfold
    simp only [h0]
  obtain ⟨SO, hopen⟩ : ∃ s, openStore SM.file = .ok s := ⟨_, hopen0⟩
  have hSOeq : SO = ⟨SM.file, idxInsert [] e2.key 0, 0 + e2.size, 0,
      SM.file.length⟩ :=
    Except.ok.inj (hopen.symm.trans hopen0)
  have hSOidx : idxGet SO.index [107] = some 0 := by
    have h : SO.index = idxInsert [] e2.key 0 := by rw [hSOeq]
    rw [h, idxGet_insert, if_pos (show ([107] : List Nat) = e2.key from rfl)]
  have hSOread : readAt SO.disk 0 = .ok e2 := by
    have hd : SO.disk = SM.file := by
      rw [SimplifiedBitcask.disk, show SO.flushed = SM.file.length from by rw [hSOeq],
        show SO.file = SM.file from by rw [hSOeq], List.take_length]
    rw [hd, hSMfile]
    have h := readAt_last hwf2 ([] : List Nat)
    rw [show ([] : List Nat).length = 0 from rfl] at h
    rw [show ([] : List Nat) ++ e2.encode = e2.encode from rfl] at h
    exact h
  have hgetO : SO.get [107] = .ok (some [98]) := by
    rw [SimplifiedBitcask.get, SimplifiedBitcask.read]
    simp only [hSOidx, hSOread]
    rfl
  exact ⟨S1, SW, SM, SO, hputS1, hr1, hw2, hgetW, hmerge, hput2, hreachM, hSMidx,
    hSMdisk, hSMfileNe, hgetM, hremM, hwriteM, hopen, hgetO⟩

/-- C1: the claimed round trip — a successful `set(k, v)` makes a
subsequent `get(k)` on the same instance return `v` — fails in the code: a
`set` that triggers compaction returns `Ok`, but the merged record stays in
the unflushed merge-file `BufWriter`, so the reopened reader sees an empty
on-disk file and the subsequent `get` returns `Err(EOF)` instead of the
value. -/
theorem C1_set_get_failure :
    ∃ s1 s2, SimplifiedBitcask.empty.put [107] hugeValue = .ok s1
      ∧ s1.put [107] [98] = .ok s2
      ∧ s2.get [107] = .error .EOF := by
  obtain ⟨s1, sW, sM, sO, hp1, _, _, _, _, hp2, _, _, _, _, hget, _⟩ := flushBugRun
  exact ⟨s1, sM, hp1, hp2, hget⟩

/-- C2 (amended): reopening a reachable engine on its data file (as a
clean shutdown leaves it, since the drop flushes the writer) succeeds and
rebuilds an index that agrees with the pre-shutdown index on every key;
gets observe the same value-or-absent as before the restart whenever the
writer''s buffer was flushed — true at every moment except between a merge
and the next write, where the pre-restart `get` itself fails (see the
counterexample). -/
theorem C2_reopen_preserves {s : SimplifiedBitcask} (hs : Reachable s) :
    ∃ s', openStore s.file = .ok s'
      ∧ (∀ k, idxGet s'.index k = idxGet s.index k)
      ∧ (s.flushed = s.file.length → ∀ k, s'.get k = s.get k) := by
  obtain ⟨s', ho, _, _, _, _, hp, hg⟩ := openStore_spec (reachable_inv hs)
  exact ⟨s', ho, hp, hg⟩

/-- C2 witness: reopening the one-record sample store, whose writer is
flushed. -/
theorem C2_reopen_preserves_witness :
    ∃ s', openStore sampleState.file = .ok s'
      ∧ (∀ k, idxGet s'.index k = idxGet sampleState.index k)
      ∧ (sampleState.flushed = sampleState.file.length
          → ∀ k, s'.get k = sampleState.get k) :=
  C2_reopen_preserves sampleState_reachable

/-- C2 counterexample: at the reachable post-merge state the pre-restart
`get` returns `Err(EOF)` while the post-restart `get` returns the value, so
the reopened engine does not observe the same outcome for every `get` as
before the restart. -/
theorem C2_counterexample :
    ∃ s s', Reachable s ∧ openStore s.file = .ok s'
      ∧ s.get [107] = .error .EOF
      ∧ s'.get [107] = .ok (some [98]) := by
  obtain ⟨s1, sW, sM, sO, _, _, _, _, _, _, hreach, _, _, _, hget, _, _, hopen,
    hgetO⟩ := flushBugRun
  exact ⟨sM, sO, hreach, hopen, hget, hgetO⟩

/-- C3: the claim that compaction leaves the visible mapping unchanged
fails in the code: before the merge `get(k)` returns the value, the merge
returns `Ok`, and afterwards `get(k)` returns `Err(EOF)`, because the
rewritten live record is still sitting in the merge writer''s buffer while
the reader was reopened on the (empty) on-disk merge file. -/
theorem C3_merge_breaks :
    ∃ s1 sW sM, SimplifiedBitcask.empty.put [107] hugeValue = .ok s1
      ∧ s1.write (Entry.new [107] [98] CmdKind.PUT) = .ok sW
      ∧ sW.get [107] = .ok (some [98])
      ∧ sW.merge = .ok sM
      ∧ sM.get [107] = .error .EOF := by
  obtain ⟨s1, sW, sM, sO, hp1, _, hw, hgW, hm, _, _, _, _, _, hget, _⟩ := flushBugRun
  exact ⟨s1, sW, sM, hp1, hw, hgW, hm, hget⟩

/-- C4: the claimed index-fidelity invariant fails in the code: at a
reachable post-merge state the index maps the live key to offset 0, but
the active data file on disk is empty (the record is buffered, unflushed),
so decoding at that offset fails with `EOF` rather than yielding the PUT
record for the key. -/
theorem C4_index_fidelity_failure :
    ∃ s, Reachable s ∧ idxGet s.index [107] = some 0
      ∧ s.disk = [] ∧ s.file ≠ []
      ∧ readAt s.disk 0 = .error .EOF := by
  obtain ⟨s1, sW, sM, sO, _, _, _, _, _, _, hreach, hidx, hdisk, hne, _⟩ :=
    flushBugRun
  refine ⟨sM, hreach, hidx, hdisk, hne, ?_⟩
  rw [hdisk]
  rfl

/-- C5: the claim that `remove(k)` with `k` present appends a DEL record
and succeeds fails in the code: at a reachable post-merge state the key is
present, but `remove` re-reads the superseded record through the reader,
which sees the empty on-disk file, and the `.unwrap()` panics instead of
returning. -/
theorem C5_remove_panics :
    ∃ s, Reachable s ∧ idxGet s.index [107] = some 0
      ∧ s.remove [107] = .error .panicked := by
  obtain ⟨s1, sW, sM, sO, _, _, _, _, _, _, hreach, hidx, _, _, _, hrem, _⟩ :=
    flushBugRun
  exact ⟨sM, hreach, hidx, hrem⟩

/-- C6 (amended): after the write step of a `set`, the engine merges before
returning exactly when `pending_compact` reached the threshold, so every
successful `set` returns with `pending_compact` below `1 <<< 16`; `remove`
performs no such check (see the counterexample). -/
theorem C6_set_threshold {s s1 : SimplifiedBitcask} {k v : List Nat}
    (hw : s.write (Entry.new k v CmdKind.PUT) = .ok s1) :
    (s1.pending_compact ≥ COMPACTION_THRESHOLD → s.put k v = s1.merge)
    ∧ (¬ s1.pending_compact ≥ COMPACTION_THRESHOLD → s.put k v = .ok s1)
    ∧ (∀ s', s.put k v = .ok s' → s'.pending_compact < COMPACTION_THRESHOLD) := by
  refine ⟨?_, ?_, fun s' h => put_pc_lt h⟩
  · intro hge
    rw [SimplifiedBitcask.put]
    simp only [hw]
    rw [if_pos hge]
  · intro hlt
    rw [SimplifiedBitcask.put]
    simp only [hw]
    rw [if_neg hlt]

/-- C6 witness: a first `set` on a fresh store stays below the threshold. -/
theorem C6_set_threshold_witness :
    (sampleState.pending_compact ≥ COMPACTION_THRESHOLD
      → SimplifiedBitcask.empty.put [97] [98] = sampleState.merge)
    ∧ (¬ sampleState.pending_compact ≥ COMPACTION_THRESHOLD
      → SimplifiedBitcask.empty.put [97] [98] = .ok sampleState)
    ∧ (∀ s', SimplifiedBitcask.empty.put [97] [98] = .ok s'
      → s'.pending_compact < COMPACTION_THRESHOLD) :=
  C6_set_threshold (by decide)

set_option maxHeartbeats 1000000 in
/-- C6 counterexample: a successful `remove` can return with
`pending_compact` at 65618 ≥ 65536 without merging — after `set` of a
65600-byte value, removing the key supersedes the 65618-byte PUT record,
and `remove` never checks the threshold, refuting the claim that every
write operation (set and remove alike) merges before returning when the
threshold is reached. -/
theorem C6_counterexample :
    ∃ s1 s2, SimplifiedBitcask.empty.put [97] bigValue = .ok s1
      ∧ s1.remove [97] = .ok s2
      ∧ COMPACTION_THRESHOLD ≤ s2.pending_compact := by
  have hwfv : WFStr bigValue := by
    constructor
    · exact utf8Valid_ascii fun b hb => by
        rw [List.eq_of_mem_replicate hb]
        norm_num
    · rw [bigValue, List.length_replicate, USIZE_LEN]
      norm_num
  have hwfk : WFStr [97] := by decide
  set eb := Entry.new [97] bigValue CmdKind.PUT with heb
  have hwfe : WFEntry eb := wfentry_new_put hwfk hwfv
  have hsz : eb.size = 65618 := by
    rw [Entry.size, show eb.key_len = 1 from rfl,
      show eb.value_len = bigValue.length from rfl, bigValue,
      List.length_replicate, ENTRY_HEAD_LEN, USIZE_LEN]
  obtain ⟨S1, hw1⟩ : ∃ s, SimplifiedBitcask.empty.write eb = .ok s :=
    ⟨_, write_eq_none rfl⟩
  obtain ⟨hf1, hi1, hwp1, hfl1, hpn1, -⟩ := write_ok_shape hw1
  have hpc1 : S1.pending_compact = 0 := hpn1 rfl
  have hflen1 : S1.flushed = S1.file.length := by rw [hfl1, hf1]
  have hdisk1 : S1.disk = S1.file := disk_flushed hflen1
  have hidx1 : idxGet S1.index [97] = some 0 := by
    rw [hi1, idxGet_insert, if_pos (show ([97] : List Nat) = eb.key from rfl)]
    rfl
  have hread1 : readAt S1.disk 0 = .ok eb := by
    rw [hdisk1, hf1]
    have h := readAt_last hwfe SimplifiedBitcask.empty.file
    rw [show SimplifiedBitcask.empty.file.length = 0 from rfl] at h
    exact h
  have hput1 : SimplifiedBitcask.empty.put [97] bigValue = .ok S1 := by
    rw [SimplifiedBitcask.put, ← heb]
    simp only [hw1]
    rw [if_neg ?hpc]
    case hpc =>
      rw [hpc1]
      decide
  have hrem0 : S1.remove [97] = .ok ⟨S1.file ++ (Entry.new [97] [] CmdKind.DEL).encode,
      idxRemove (idxInsert S1.index (Entry.new [97] [] CmdKind.DEL).key
        S1.writerPos) [97],
      S1.writerPos + (Entry.new [97] [] CmdKind.DEL).encode.length,
      S1.pending_compact + eb.size,
      (S1.file ++ (Entry.new [97] [] CmdKind.DEL).encode).length⟩ := by
    rw [SimplifiedBitcask.remove, if_pos (by rw [hidx1]; rfl)]
    rw [write_eq_some (e := Entry.new [97] [] CmdKind.DEL) hidx1 hread1]
  obtain ⟨S2, hrem⟩ : ∃ s, S1.remove [97] = .ok s := ⟨_, hrem0⟩
  have hS2eq : S2 = ⟨S1.file ++ (Entry.new [97] [] CmdKind.DEL).encode,
      idxRemove (idxInsert S1.index (Entry.new [97] [] CmdKind.DEL).key
        S1.writerPos) [97],
      S1.writerPos + (Entry.new [97] [] CmdKind.DEL).encode.length,
      S1.pending_compact + eb.size,
      (S1.file ++ (Entry.new [97] [] CmdKind.DEL).encode).length⟩ :=
    Except.ok.inj (hrem.symm.trans hrem0)
  have hpcS2 : S2.pending_compact = S1.pending_compact + eb.size := by
    rw [hS2eq]
  refine ⟨S1, S2, hput1, hrem, ?_⟩
  rw [hpcS2, hpc1, hsz]
  decide

/-- C7: when a write supersedes an earlier record, `pending_compact` grows
by exactly that record''s total size (header plus key plus value bytes);
with no superseded record it is unchanged; and `open` always reinitializes
`pending_compact` to 0, crediting nothing during replay whatever the file
contains. -/
theorem C7_pending_exact {s : SimplifiedBitcask} (hs : Reachable s) :
    (∀ e s' off, idxGet s.index e.key = some off → s.write e = .ok s' →
      ∃ old, readAt s.file off = .ok old
        ∧ old.size = ENTRY_HEAD_LEN + old.key.length + old.value.length
        ∧ s'.pending_compact = s.pending_compact + old.size)
    ∧ (∀ e s', idxGet s.index e.key = none → s.write e = .ok s' →
        s'.pending_compact = s.pending_compact)
    ∧ (∀ f s', openStore f = .ok s' → s'.pending_compact = 0) := by
  have hinv := reachable_inv hs
  refine ⟨?_, ?_, ?_⟩
  · intro e s' off hoff hw
    obtain ⟨old, hre, hpc⟩ := write_ok_some_read hoff hw
    have hfileR : readAt s.file off = .ok old := readAt_disk_ok hre
    obtain ⟨old2, hr2, hwfold2, _, _⟩ := inv_readAt hinv hoff
    rw [hfileR] at hr2
    injection hr2 with hr2
    rw [← hr2] at hwfold2
    refine ⟨old, hfileR, ?_, hpc⟩
    obtain ⟨h1, h2, _, _⟩ := hwfold2
    rw [Entry.size, h1, h2]
  · intro e s' hnone hw
    rw [write_eq_none hnone] at hw
    injection hw with hw
    rw [← hw]
  · intro f s' ho
    exact openStore_pc ho

/-- C7 witness at the sample store. -/
theorem C7_pending_exact_witness :
    (∀ e s' off, idxGet sampleState.index e.key = some off
      → sampleState.write e = .ok s' →
      ∃ old, readAt sampleState.file off = .ok old
        ∧ old.size = ENTRY_HEAD_LEN + old.key.length + old.value.length
        ∧ s'.pending_compact = sampleState.pending_compact + old.size)
    ∧ (∀ e s', idxGet sampleState.index e.key = none
      → sampleState.write e = .ok s' →
        s'.pending_compact = sampleState.pending_compact)
    ∧ (∀ f s', openStore f = .ok s' → s'.pending_compact = 0) :=
  C7_pending_exact sampleState_reachable

/-- C8: for every well-formed entry, `encode` produces a buffer of exactly
`size(e) = ENTRY_HEAD_LEN + key_len + value_len` bytes, and decoding the
first `ENTRY_HEAD_LEN` bytes recovers `key_len`, `value_len` and `kind`
exactly. -/
theorem C8_codec_roundtrip {e : Entry} (h : WFEntry e) :
    e.encode.length = e.size
    ∧ Entry.decode (e.encode.take ENTRY_HEAD_LEN)
        = .ok ⟨e.key_len, e.value_len, [], [], e.kind⟩ := by
  obtain ⟨h1, h2, ⟨hku, hkb⟩, ⟨hvu, hvb⟩⟩ := h
  constructor
  · exact encode_length_of_wf ⟨h1, h2, ⟨hku, hkb⟩, ⟨hvu, hvb⟩⟩
  · have hhl : (toBE 8 e.key_len ++ (toBE 8 e.value_len ++ [kindByte e.kind])).length
        = ENTRY_HEAD_LEN := by
      simp [toBE_length, ENTRY_HEAD_LEN, USIZE_LEN]
    have htake : e.encode.take ENTRY_HEAD_LEN
        = toBE 8 e.key_len ++ (toBE 8 e.value_len ++ [kindByte e.kind]) := by
      rw [encode_eq, ← hhl, List.take_left]
    rw [htake]
    exact decode_header e (by rw [h1]; simpa [USIZE_LEN] using hkb)
      (by rw [h2]; simpa [USIZE_LEN] using hvb)

/-- C8 witness: round-trip of a concrete two-byte-value PUT entry. -/
theorem C8_codec_roundtrip_witness :
    (Entry.new [97] [98, 99] CmdKind.PUT).encode.length
        = (Entry.new [97] [98, 99] CmdKind.PUT).size
    ∧ Entry.decode ((Entry.new [97] [98, 99] CmdKind.PUT).encode.take ENTRY_HEAD_LEN)
        = .ok ⟨(Entry.new [97] [98, 99] CmdKind.PUT).key_len,
            (Entry.new [97] [98, 99] CmdKind.PUT).value_len, [], [],
            (Entry.new [97] [98, 99] CmdKind.PUT).kind⟩ :=
  C8_codec_roundtrip (by decide)

/-- C9 (amended): the CLI exits 0 on a successful `set`; on a non-panic
engine error during `set` it prints the diagnostic to standard error but
still exits 0 (the Rust `Set` arm has no `exit` call); `rm` of an absent
key prints `Key not found` to standard output and exits 1. -/
theorem C9_cli_exit {s : SimplifiedBitcask} {k v : List Nat} :
    (∀ s', s.put k v = .ok s' →
      cliMain s (CliCmd.set k v) = .ok ⟨[], none, 0⟩)
    ∧ (∀ er, s.put k v = .error er → er ≠ KvsError.panicked →
        cliMain s (CliCmd.set k v) = .ok ⟨[], some er, 0⟩)
    ∧ (idxGet s.index k = none →
        cliMain s (CliCmd.rm k) = .ok ⟨[OutLine.keyNotFound], none, 1⟩) := by
  refine ⟨?_, ?_, ?_⟩
  · intro s' h
    rw [cliMain]
    simp only [h]
  · intro er h hne
    rw [cliMain]
    cases er <;> simp only [h]
    exact absurd rfl hne
  · intro h
    rw [cliMain]
    simp only [remove_absent h]

/-- C9 witness: a successful set on a fresh store exits 0, and `rm` of an
absent key prints `Key not found` and exits 1. -/
theorem C9_cli_exit_witness :
    cliMain SimplifiedBitcask.empty (CliCmd.set [97] [98]) = .ok ⟨[], none, 0⟩
    ∧ cliMain SimplifiedBitcask.empty (CliCmd.rm [99]) =
        .ok ⟨[OutLine.keyNotFound], none, 1⟩ :=
  ⟨(@C9_cli_exit SimplifiedBitcask.empty [97] [98]).1 sampleState (by decide),
   (@C9_cli_exit SimplifiedBitcask.empty [99] [98]).2.2 (by decide)⟩

/-- C9 counterexample: on a corrupted store whose reclaim counter forces a
merge, `set` returns a decode error; the CLI records the diagnostic on
standard error yet exits 0, refuting the claimed non-zero exit on engine
error during set. -/
theorem C9_counterexample :
    cliMain ⟨[1, 2, 3], [], 3, 70000, 3⟩ (CliCmd.set [97] [98])
      = .ok ⟨[], some KvsError.ReprDecode, 0⟩ := by
  decide

/-- C10: the implicit claim that the write path''s re-read of a superseded
record always succeeds — making the `.unwrap()` panic unreachable — is
refuted by the code: at a reachable post-merge state the superseding write
re-reads offset 0 through the reader, the on-disk file is empty, and the
`.unwrap()` fires (modelled by the `panicked` outcome). -/
theorem C10_unwrap_panic :
    ∃ s, Reachable s
      ∧ s.write (Entry.new [107] [99] CmdKind.PUT) = .error .panicked := by
  obtain ⟨s1, sW, sM, sO, _, _, _, _, _, _, hreach, _, _, _, _, _, hwr, _⟩ :=
    flushBugRun
  exact ⟨sM, hreach, hwr [99]⟩

end MiniDB
